import Mathlib

/-!
Verification development for the Hierholzer-variation train-service
generator.  The definitions below are a shallow embedding of the Python
sources (`classes/graph_class.py`, `classes/track_class.py`,
`classes/service_class.py`, `helpers.py`, `hierholzer_variation.py`):

* node identifiers are the CSV strings, edges are directed pairs of node
  identifiers (Python 2-tuples);
* Python's ambient random generator is modelled by an explicit stream
  `r : Nat → Nat` of draws together with a cursor `k`; `random.choice`
  indexes the candidate list with the next draw modulo its length;
* fallible Python operations (`ZeroDivisionError` from `/`, `IndexError`
  from indexing an empty list, `ValueError` from `list.remove`) are
  modelled with `Except`; the two `while` loops of the generator are
  modelled with explicit fuel, running out of fuel being a distinguished
  error so that a diverging loop is never reported as a result;
* Python floats are modelled as exact rationals.
-/

set_option allowUnsafeReducibility true
attribute [semireducible] Rat.add Rat.mul Rat.sub Rat.inv Rat.div

/-- Equality of `Except` results is decidable when both component types
have decidable equality; used to `decide` concrete runs. -/
instance {ε α : Type} [DecidableEq ε] [DecidableEq α] : DecidableEq (Except ε α) := fun x y =>
  match x, y with
  | .error a, .error b =>
    if h : a = b then isTrue (by rw [h])
    else isFalse (fun hc => h (Except.error.inj hc))
  | .error _, .ok _ => isFalse (fun hc => Except.noConfusion hc)
  | .ok _, .error _ => isFalse (fun hc => Except.noConfusion hc)
  | .ok a, .ok b =>
    if h : a = b then isTrue (by rw [h])
    else isFalse (fun hc => h (Except.ok.inj hc))

namespace Hierholzer

/-- Node identifiers as they come out of the CSV reader: strings. -/
abbrev Node := String

/-- A directed edge, a Python 2-tuple of node identifiers. -/
abbrev Edge := Node × Node

/-- Errors a run of the translated code can signal: `zeroDivision` for
Python's `ZeroDivisionError`, `indexError` for indexing an empty list,
`valueError` for `list.remove` on a missing element, and `outOfFuel` for
a loop that did not finish within the supplied fuel. -/
inductive PyErr where
  | zeroDivision
  | indexError
  | valueError
  | outOfFuel
deriving DecidableEq, Repr

/-- A stream of random draws; `random.choice` consumes one draw. -/
abbrev RandStream := Nat → Nat

/-- Python's `random.choice(l)` driven by draw `k`: an `IndexError` on an
empty list, otherwise the element at the draw modulo the length. -/
def pyChoice {α : Type} (l : List α) (k : Nat) : Except PyErr α :=
  match l with
  | [] => .error .indexError
  | a :: rest => .ok ((a :: rest).getD (k % (a :: rest).length) a)

/-- Python runtime values, as far as this program compares them: node
identifiers (strings) and edge tuples.  Python `==` across these two
shapes is equality in this common type, so a string is never equal to a
tuple. -/
inductive PyVal where
  | str : String → PyVal
  | pair : PyVal → PyVal → PyVal
deriving DecidableEq, Repr

/-- The Python value of a node identifier. -/
def pyNodeVal (n : Node) : PyVal := .str n

/-- The Python value of an edge tuple. -/
def pyEdgeVal (e : Edge) : PyVal := .pair (.str e.1) (.str e.2)

/-- Python's `==` between a node identifier and an edge tuple, via the
common value representation (`get_one_edge_node` performs exactly this
comparison through `node in service.all_critical_edges`). -/
def pyEq_node_edge (n : Node) (e : Edge) : Bool :=
  pyNodeVal n == pyEdgeVal e

/-- The graph object of `classes/graph_class.py` after construction:
node list, edge list, the networkx adjacency (`graph.G[n]` as a neighbor
list) and edge weights (`graph.G[a][b]['weight']`), and the precomputed
critical-edge list. -/
structure Graph where
  nodes : List Node
  edges : List Edge
  adj : Node → List Node
  weight : Node → Node → Int
  critical_edge_list : List Edge

/-- `classes/track_class.py`: an ordered edge sequence, the `necessary`
flag used by the merge pass, and the stored total time. -/
structure Track where
  edges : List Edge
  necessary : Bool
  time : Int
deriving DecidableEq, Repr

/-- Sum of graph-weight lookups over an edge list, in order — the body of
`Track.update_time`. -/
def sumW (w : Node → Node → Int) (l : List Edge) : Int :=
  l.foldl (fun t e => t + w e.1 e.2) 0

namespace Track

/-- `Track.__init__`: empty edge list, `necessary = True`, and
`get_time()` of an empty list, which is `0`. -/
def init : Track := { edges := [], necessary := true, time := 0 }

/-- `Track.update_time`: recompute `time` as the sum of weight lookups
over the current edge sequence. -/
def update_time (w : Node → Node → Int) (t : Track) : Track :=
  { t with time := sumW w t.edges }

/-- `Track.add_edge`: append the edge and recompute the time if the track
is empty or the edge departs from the last arrival station; otherwise
print an error message and leave the track unchanged (the caller receives
no signal). -/
def add_edge (w : Node → Node → Int) (t : Track) (e : Edge) : Track :=
  match t.edges.getLast? with
  | none => update_time w { t with edges := t.edges ++ [e] }
  | some last =>
    if last.2 = e.1 then update_time w { t with edges := t.edges ++ [e] }
    else t

/-- `Track.add_edge_list`: replace the whole edge sequence and recompute
the time; no contiguity validation. -/
def add_edge_list (w : Node → Node → Int) (t : Track) (l : List Edge) : Track :=
  { t with edges := l, time := sumW w l }

/-- `Track.remove_last_edge`: `self.edges = self.edges[:-1]` followed by
`update_time` (Python slicing of an empty list yields an empty list). -/
def remove_last_edge (w : Node → Node → Int) (t : Track) : Track :=
  { t with edges := t.edges.dropLast, time := sumW w t.edges.dropLast }

end Track

/-- `helpers.get_percentage_critical_edges_traversed`: the Python `/`
raises `ZeroDivisionError` when `all_critical_edges` is empty, otherwise
returns the ratio. -/
def get_percentage_critical_edges_traversed
    (critical_edges_traversed all_critical_edges : List Edge) :
    Except PyErr ℚ :=
  if all_critical_edges.length = 0 then .error .zeroDivision
  else .ok ((critical_edges_traversed.length : ℚ) / (all_critical_edges.length : ℚ))

/-- `helpers.get_score`. -/
def get_score (percen : ℚ) (track_amount : Nat) (total_track_time : Int) : ℚ :=
  percen * 10000 - ((track_amount : ℚ) * 20 + (total_track_time : ℚ) / 100000)

/-- `classes/service_class.py`: track list, the graph's critical-edge
list, the traversed critical edges, total time, coverage fraction and
score. -/
structure Service where
  tracks : List Track
  all_critical_edges : List Edge
  critical_edges_traversed : List Edge
  time : Int
  percen_critical_edges_traversed : ℚ
  score : ℚ
deriving DecidableEq, Repr

/-- The loop body of `Service.add_traversed_critical_edge`: fold the
track's edges over the traversed list, appending an edge when it is
critical in either orientation and not yet recorded in either
orientation. -/
def addTraversedFrom (all_critical_edges : List Edge)
    (traversed : List Edge) (t : Track) : List Edge :=
  t.edges.foldl (fun acc e =>
    if (all_critical_edges.contains e || all_critical_edges.contains (e.2, e.1))
        && (!acc.contains e && !acc.contains (e.2, e.1))
    then acc ++ [e] else acc) traversed

namespace Service

/-- `Service.__init__`. -/
def init (g : Graph) : Service :=
  { tracks := []
    all_critical_edges := g.critical_edge_list
    critical_edges_traversed := []
    time := 0
    percen_critical_edges_traversed := 0
    score := 0 }

/-- `Service.update_scores`: recompute the coverage fraction (which can
raise `ZeroDivisionError`) and the score. -/
def update_scores (s : Service) : Except PyErr Service := do
  let p ← get_percentage_critical_edges_traversed
    s.critical_edges_traversed s.all_critical_edges
  .ok { s with
    percen_critical_edges_traversed := p
    score := get_score p s.tracks.length s.time }

/-- `Service.add_track`: append the track, record its critical edges, add
its time, and recompute the scores. -/
def add_track (s : Service) (t : Track) : Except PyErr Service :=
  let s1 := { s with tracks := s.tracks ++ [t] }
  let tr := addTraversedFrom s1.all_critical_edges s1.critical_edges_traversed t
  let s2 := { s1 with critical_edges_traversed := tr }
  let s3 := { s2 with time := s2.time + t.time }
  s3.update_scores

/-- `Service.remove_traversed_critical_edge`: clear the traversed list
and rebuild it from the remaining tracks. -/
def remove_traversed_critical_edge (s : Service) : Service :=
  let tr := s.tracks.foldl (addTraversedFrom s.all_critical_edges) []
  { s with critical_edges_traversed := tr }

/-- `Service.remove_track`: `list.remove` drops the first equal track and
raises `ValueError` when none is present; then rebuild the traversed
list, subtract the track's time, and recompute the scores. -/
def remove_track (s : Service) (t : Track) : Except PyErr Service :=
  if s.tracks.contains t then
    let s1 := { s with tracks := s.tracks.erase t }
    let s2 := s1.remove_traversed_critical_edge
    let s3 := { s2 with time := s2.time - t.time }
    s3.update_scores
  else .error .valueError

end Service

/-! The generator of `hierholzer_variation.py`.  The console loading bar
and `print` calls are I/O only and have no bearing on the returned data;
they are omitted. -/

/-- The endpoint list `[node for edge in untraversed_edges for node in edge]`
fed to `collections.Counter` in `get_one_edge_node`. -/
def flat_endpoints (u : List Edge) : List Node :=
  u.foldr (fun e acc => e.1 :: e.2 :: acc) []

/-- Helper for `counterKeys`: keep the first occurrence of each element,
tracking the elements already seen. -/
def counterKeysAux (seen : List Node) : List Node → List Node
  | [] => []
  | a :: l =>
    if seen.contains a then counterKeysAux seen l
    else a :: counterKeysAux (seen ++ [a]) l

/-- Key order of a `collections.Counter` built from a list: first
occurrence order. -/
def counterKeys (l : List Node) : List Node :=
  counterKeysAux [] l

/-- `get_one_edge_node`: the nodes with exactly one touching pool edge,
filtered by the Python test `node in service.all_critical_edges` (a node
identifier compared against edge tuples), then the three-way random
choice of the source. -/
def get_one_edge_node (u : List Edge) (all_critical_edges : List Edge)
    (g : Graph) (r : RandStream) (k : Nat) : Except PyErr (Node × Nat) :=
  let keys := counterKeys (flat_endpoints u)
  let nodes_with_one_edge := keys.filter (fun n => (flat_endpoints u).count n == 1)
  let nodes_with_one_edge_and_critical_neighbor :=
    nodes_with_one_edge.filter (fun n => all_critical_edges.any (fun e => pyEq_node_edge n e))
  if nodes_with_one_edge_and_critical_neighbor ≠ [] then
    (pyChoice nodes_with_one_edge_and_critical_neighbor (r k)).map (fun n => (n, k + 1))
  else if nodes_with_one_edge ≠ [] then
    (pyChoice nodes_with_one_edge (r k)).map (fun n => (n, k + 1))
  else
    (pyChoice g.nodes (r k)).map (fun n => (n, k + 1))

/-- `get_neighbour_with_untraversed_edge`: draw a uniformly random graph
neighbor of the current node, and redraw as long as neither orientation
of the connecting edge is in the untraversed pool.  The source loop is
unbounded; fuel makes the embedding total, with `outOfFuel` marking a
run of draws the source would still be looping on. -/
def get_neighbour_with_untraversed_edge :
    Nat → RandStream → Nat → List Edge → Graph → Node → Except PyErr (Node × Nat)
  | 0, _, _, _, _, _ => .error .outOfFuel
  | fuel + 1, r, k, u, g, current => do
    let nb ← pyChoice (g.adj current) (r k)
    if u.contains (current, nb) || u.contains (nb, current) then .ok (nb, k + 1)
    else get_neighbour_with_untraversed_edge fuel r (k + 1) u g current

/-- `edge_again_untraversed`: move the track's last edge back into the
untraversed pool (`track.edges[-1]` raises `IndexError` on an empty
track). -/
def edge_again_untraversed (t : Track) (u : List Edge) (w : Node → Node → Int) :
    Except PyErr (Track × List Edge) :=
  match t.edges.getLast? with
  | none => .error .indexError
  | some last => .ok (t.remove_last_edge w, u ++ [last])

/-- Ghost events recording the pool traffic of one generation run: an
edge removed from the untraversed pool when it is traversed, and an edge
returned to the pool by an overflow correction.  The log mirrors the pool
operations of the walk verbatim and does not influence control flow. -/
inductive WalkEv where
  | removed : Edge → WalkEv
  | returned : Edge → WalkEv
deriving DecidableEq, Repr

/-- The inner `while True` of `algo`: extend the current track edge by
edge, with the two overflow-correction branches of the source, finishing
a track (and possibly starting a fresh one) exactly as the source does.
Returns the service, the pool, the event log and the random cursor. -/
def walk (g : Graph) (max_track_length : Int) :
    Nat → RandStream → Nat → List Edge → Track → Service → Node → List WalkEv →
    Except PyErr (Service × List Edge × List WalkEv × Nat)
  | 0, _, _, _, _, _, _, _ => .error .outOfFuel
  | fuel + 1, r, k, u, track, service, current, log =>
    let remaining := u.filter (fun e => e.1 == current || e.2 == current)
    if remaining = [] then
      if track.time > max_track_length then do
        let p ← edge_again_untraversed track u g.weight
        let ev := match track.edges.getLast? with
          | some last => [WalkEv.returned last]
          | none => []
        let s2 ← service.add_track p.1
        .ok (s2, p.2, log ++ ev, k)
      else do
        let s2 ← service.add_track track
        .ok (s2, u, log, k)
    else if track.time > max_track_length then do
      let p ← edge_again_untraversed track u g.weight
      let ev := match track.edges.getLast? with
        | some last => [WalkEv.returned last]
        | none => []
      let s2 ← service.add_track p.1
      walk g max_track_length fuel r k p.2 Track.init s2 current (log ++ ev)
    else do
      let q ← get_neighbour_with_untraversed_edge fuel r k u g current
      let nb := q.1
      let rm :=
        if u.contains (current, nb) then
          (u.erase (current, nb), [WalkEv.removed (current, nb)])
        else if u.contains (nb, current) then
          (u.erase (nb, current), [WalkEv.removed (nb, current)])
        else (u, ([] : List WalkEv))
      walk g max_track_length fuel r q.2 rm.1 (track.add_edge g.weight (current, nb))
        service nb (log ++ rm.2)

/-- The outer `while untraversed_edges and len(service.tracks) <
max_track_amount` loop of `algo`: seed a node, walk a track, repeat. -/
def build_service (g : Graph) (max_track_amount : Nat) (max_track_length : Int) :
    Nat → RandStream → Nat → Service → List Edge → List WalkEv →
    Except PyErr (Service × List Edge × List WalkEv × Nat)
  | 0, _, _, _, _, _ => .error .outOfFuel
  | fuel + 1, r, k, service, u, log =>
    if u ≠ [] ∧ service.tracks.length < max_track_amount then do
      let p ← get_one_edge_node u service.all_critical_edges g r k
      let q ← walk g max_track_length fuel r p.2 u Track.init service p.1 log
      build_service g max_track_amount max_track_length fuel r q.2.2.2 q.1 q.2.1 q.2.2.1
    else .ok (service, u, log, k)

/-- One candidate construction of `algo` before the optimization passes:
fresh empty service, pool of all graph edges. -/
def generate_service (g : Graph) (max_track_amount : Nat) (max_track_length : Int)
    (fuel : Nat) (r : RandStream) (k : Nat) :
    Except PyErr (Service × List Edge × List WalkEv × Nat) :=
  build_service g max_track_amount max_track_length fuel r k (Service.init g) g.edges []

/-- `remove_unnecessary_tracks`: keep only tracks containing a critical
edge in either orientation, by direct reassignment of `service.tracks`
(no other service field is touched by the source). -/
def remove_unnecessary_tracks (s : Service) (g : Graph) : Service :=
  let tr := s.tracks.filter (fun t => t.edges.any (fun e =>
    g.critical_edge_list.contains e || g.critical_edge_list.contains (e.2, e.1)))
  { s with tracks := tr }

/-- Index pairs `(i, j)` with `i < j` in the order produced by
`itertools.combinations(list, 2)`. -/
def pairsIdx (n : Nat) : List (Nat × Nat) :=
  (List.range n).flatMap (fun i => ((List.range n).drop (i + 1)).map (fun j => (i, j)))

/-- `[tuple(reversed(edge)) for edge in reversed(track.edges)]`. -/
def revSwap (l : List Edge) : List Edge :=
  l.reverse.map (fun e => (e.2, e.1))

/-- The four endpoint-matching splice cases of `combine_tracks`, in
source order; `none` when the pair shares no endpoint (the `continue`). -/
def combined_edges (ti tj : Track) : Option (List Edge) :=
  match ti.edges.head?, tj.edges.head?, ti.edges.getLast?, tj.edges.getLast? with
  | some hi, some hj, some li, some lj =>
    if hi.1 = hj.1 then some (revSwap tj.edges ++ ti.edges)
    else if hi.1 = lj.2 then some (tj.edges ++ ti.edges)
    else if li.2 = hj.1 then some (ti.edges ++ tj.edges)
    else if li.2 = lj.2 then some (tj.edges ++ revSwap ti.edges)
    else none
  | _, _, _, _ => none

/-- The pairwise scan of `combine_tracks`: a fold over all index pairs
carrying the in-place `necessary` flags (initially the tracks' own) and
the pending merged edge lists, with the source's duplicate check against
the pending list and its exact (orientation-keeping) reversal. -/
def combine_scan (max_track_length : Int) (tracks : List Track) :
    List Bool × List (List Edge) :=
  (pairsIdx tracks.length).foldl (fun st ij =>
    match tracks.get? ij.1, tracks.get? ij.2 with
    | some ti, some tj =>
      if ti.time + tj.time < max_track_length ∧ ti.edges ≠ [] ∧ tj.edges ≠ [] then
        match combined_edges ti tj with
        | some comb =>
          if ¬ st.2.contains comb ∧ ¬ st.2.contains comb.reverse then
            ((st.1.set ij.1 false).set ij.2 false, st.2 ++ [comb])
          else st
        | none => st
      else st
    | _, _ => st)
    (tracks.map (fun t => t.necessary), [])

/-- Write the scanned `necessary` flags back onto the track list (the
source mutates the track objects in place during the scan). -/
def applyFlags (tracks : List Track) (flags : List Bool) : List Track :=
  List.zipWith (fun t b => { t with necessary := b }) tracks flags

/-- `combine_tracks`: scan all pairs, then — only when some merge is
pending — remove every track marked unnecessary via
`Service.remove_track` and add one fresh track per pending merged edge
list via `Track.add_edge_list` and `Service.add_track`. -/
def combine_tracks (s : Service) (max_track_length : Int) (g : Graph) :
    Except PyErr Service :=
  let st := combine_scan max_track_length s.tracks
  if st.2 ≠ [] then do
    let flagged := applyFlags s.tracks st.1
    let s1 := { s with tracks := flagged }
    let s2 ← flagged.foldlM (fun acc t =>
      if t.necessary then pure acc else acc.remove_track t) s1
    let s3 ← st.2.foldlM (fun acc l =>
      acc.add_track (Track.init.add_edge_list g.weight l)) s2
    .ok s3
  else .ok s

/-- The per-iteration body of `algo`: generate a service, prune it, merge
its tracks, and append it to the batch. -/
def algo_loop (g : Graph) (max_track_amount : Nat) (max_track_length : Int)
    (fuel : Nat) (r : RandStream) :
    Nat → Nat → List Service → Except PyErr (List Service)
  | 0, _, acc => .ok acc
  | n + 1, k, acc => do
    let p ← generate_service g max_track_amount max_track_length fuel r k
    let s1 := remove_unnecessary_tracks p.1 g
    let s2 ← combine_tracks s1 max_track_length g
    algo_loop g max_track_amount max_track_length fuel r n p.2.2.2 (acc ++ [s2])

/-- `algo`: the full batch of `iterator` generated-and-optimized
services. -/
def algo (g : Graph) (max_track_amount : Nat) (max_track_length : Int)
    (iterator : Nat) (fuel : Nat) (r : RandStream) : Except PyErr (List Service) :=
  algo_loop g max_track_amount max_track_length fuel r iterator 0 []

/-! Concrete instances used by the claims. -/

/-- Sum of the stored times of a list of tracks. -/
def totalTrackTime (l : List Track) : Int :=
  (l.map Track.time).sum

/-- The 4-node path graph of the spec's concrete scenario: edges a-b,
b-c, c-d of weight 5 each, end node a critical, so edge (a, b) is the
one critical edge. -/
def pathG : Graph :=
  { nodes := ["a", "b", "c", "d"]
    edges := [("a", "b"), ("b", "c"), ("c", "d")]
    adj := fun n =>
      if n = "a" then ["b"]
      else if n = "b" then ["a", "c"]
      else if n = "c" then ["b", "d"]
      else if n = "d" then ["c"]
      else []
    weight := fun x y =>
      if (x, y) = ("a", "b") ∨ (x, y) = ("b", "a") then 5
      else if (x, y) = ("b", "c") ∨ (x, y) = ("c", "b") then 5
      else if (x, y) = ("c", "d") ∨ (x, y) = ("d", "c") then 5
      else 0
    critical_edge_list := [("a", "b")] }

/-- A 3-node path graph a-b (weight 5), b-c (weight 10), with node a
critical; with a track cap of 1 and a maximum track time of 12 the
generator overflows on the second edge and stops at the cap. -/
def gBC : Graph :=
  { nodes := ["a", "b", "c"]
    edges := [("a", "b"), ("b", "c")]
    adj := fun n =>
      if n = "a" then ["b"]
      else if n = "b" then ["a", "c"]
      else if n = "c" then ["b"]
      else []
    weight := fun x y =>
      if (x, y) = ("a", "b") ∨ (x, y) = ("b", "a") then 5
      else if (x, y) = ("b", "c") ∨ (x, y) = ("c", "b") then 10
      else 0
    critical_edge_list := [("a", "b")] }

/-- A graph with one edge and no critical edges at all. -/
def gNC : Graph :=
  { nodes := ["a", "b"]
    edges := [("a", "b")]
    adj := fun n => if n = "a" then ["b"] else if n = "b" then ["a"] else []
    weight := fun _ _ => 5
    critical_edge_list := [] }

/-- A small graph whose weight function is the constant 5, with one
critical edge; only its weights and critical-edge list matter to the
merge pass. -/
def gW : Graph :=
  { nodes := ["a", "b", "c"]
    edges := [("a", "b"), ("b", "c")]
    adj := fun _ => []
    weight := fun _ _ => 5
    critical_edge_list := [("a", "b")] }

/-- A track holding the single non-critical edge (b, c) of `gW`. -/
def tNC : Track := { edges := [("b", "c")], necessary := true, time := 5 }

/-- The service over `gW` holding exactly `tNC`, as produced by
`Service.add_track` on a fresh service. -/
def sNC : Service :=
  { tracks := [tNC]
    all_critical_edges := [("a", "b")]
    critical_edges_traversed := []
    time := 5
    percen_critical_edges_traversed := 0
    score := get_score 0 1 5 }

/-- The full path track a→b→c→d over `pathG`. -/
def trackA : Track :=
  { edges := [("a", "b"), ("b", "c"), ("c", "d")], necessary := true, time := 15 }

/-- The full path track d→c→b→a over `pathG`. -/
def trackD : Track :=
  { edges := [("d", "c"), ("c", "b"), ("b", "a")], necessary := true, time := 15 }

/-- The service produced by a `pathG` run whose seed was node a. -/
def svcA : Service :=
  { tracks := [trackA]
    all_critical_edges := [("a", "b")]
    critical_edges_traversed := [("a", "b")]
    time := 15
    percen_critical_edges_traversed := 1
    score := get_score 1 1 15 }

/-- The service produced by a `pathG` run whose seed was node d. -/
def svcD : Service :=
  { tracks := [trackD]
    all_critical_edges := [("a", "b")]
    critical_edges_traversed := [("b", "a")]
    time := 15
    percen_critical_edges_traversed := 1
    score := get_score 1 1 15 }

/-- A service over `gW` with two mergeable one-edge tracks a→b and b→c. -/
def sW : Service :=
  { tracks := [{ edges := [("a", "b")], necessary := true, time := 5 },
               { edges := [("b", "c")], necessary := true, time := 5 }]
    all_critical_edges := [("a", "b")]
    critical_edges_traversed := [("a", "b")]
    time := 10
    percen_critical_edges_traversed := 1
    score := get_score 1 2 10 }

/-! Lemmas about edge-list weight sums, the service mutators, and the
merge pass. -/

/-- Folding the weight sum from an arbitrary start value shifts by that
value. -/
theorem sumW_foldl_shift (w : Node → Node → Int) (l : List Edge) :
    ∀ a : Int, l.foldl (fun t e => t + w e.1 e.2) a = a + sumW w l := by
  induction l with
  | nil => intro a; simp [sumW]
  | cons e l ih =>
    intro a
    have h0 : sumW w (e :: l) = 0 + w e.1 e.2 + sumW w l := by
      show List.foldl _ (0 + w e.1 e.2) l = _
      rw [ih]
    simp only [List.foldl_cons]
    rw [ih (a + w e.1 e.2), h0]
    ring

/-- Weight sums add over list concatenation. -/
theorem sumW_append (w : Node → Node → Int) (l m : List Edge) :
    sumW w (l ++ m) = sumW w l + sumW w m := by
  simp only [sumW, List.foldl_append]
  rw [sumW_foldl_shift]
  rfl

/-- Weight sum of a cons cell. -/
theorem sumW_cons (w : Node → Node → Int) (e : Edge) (l : List Edge) :
    sumW w (e :: l) = w e.1 e.2 + sumW w l := by
  show List.foldl _ (0 + w e.1 e.2) l = _
  rw [sumW_foldl_shift]
  ring

/-- Reversing a walk and flipping each edge keeps its weight sum when the
weight function is symmetric. -/
theorem sumW_revSwap (w : Node → Node → Int) (hw : ∀ a b, w a b = w b a)
    (l : List Edge) : sumW w (revSwap l) = sumW w l := by
  induction l with
  | nil => rfl
  | cons e l ih =>
    have hrs : revSwap (e :: l) = revSwap l ++ [(e.2, e.1)] := by
      simp [revSwap]
    have h1 : sumW w [(e.2, e.1)] = w e.2 e.1 := by
      rw [sumW_cons]
      simp [sumW]
    rw [hrs, sumW_append, ih, h1, sumW_cons, hw e.2 e.1]
    ring

/-- A property preserved by every fold step holds of the fold result. -/
theorem foldl_invariant {α σ : Type} (P : σ → Prop) (f : σ → α → σ) :
    ∀ (l : List α) (s : σ), P s → (∀ s a, P s → P (f s a)) → P (l.foldl f s) := by
  intro l
  induction l with
  | nil => intro s h _; exact h
  | cons a l ih => intro s h hstep; exact ih (f s a) (hstep s a h) hstep

/-- A pending merged edge list together with its provenance: a pair of
nonempty member tracks whose combined stored time is under the maximum
and whose splice produces exactly this list. -/
def mergeCandidate (max_track_length : Int) (tracks : List Track)
    (c : List Edge) : Prop :=
  ∃ ti, ti ∈ tracks ∧ ∃ tj, tj ∈ tracks ∧
    ti.time + tj.time < max_track_length ∧ ti.edges ≠ [] ∧ tj.edges ≠ [] ∧
    combined_edges ti tj = some c

/-- One fold step of the pairwise scan preserves the candidate property
of every pending merged edge list. -/
theorem combine_scan_fold_sound (max_track_length : Int) (tracks : List Track) :
    ∀ (ps : List (Nat × Nat)) (st : List Bool × List (List Edge)),
      (∀ c ∈ st.2, mergeCandidate max_track_length tracks c) →
      ∀ c ∈ (ps.foldl (fun st ij =>
          match tracks.get? ij.1, tracks.get? ij.2 with
          | some ti, some tj =>
            if ti.time + tj.time < max_track_length ∧ ti.edges ≠ [] ∧ tj.edges ≠ [] then
              match combined_edges ti tj with
              | some comb =>
                if ¬ st.2.contains comb ∧ ¬ st.2.contains comb.reverse then
                  ((st.1.set ij.1 false).set ij.2 false, st.2 ++ [comb])
                else st
              | none => st
            else st
          | _, _ => st) st).2,
        mergeCandidate max_track_length tracks c := by
  intro ps
  induction ps with
  | nil => intro st h; exact h
  | cons ij ps ih =>
    intro st h
    rw [List.foldl_cons]
    apply ih
    split
    · rename_i ti tj hg1 hg2
      split
      case isFalse => exact h
      case isTrue hcond =>
        split
        · rename_i comb hce
          split
          case isFalse => exact h
          case isTrue =>
            intro c hc
            rcases List.mem_append.mp hc with hm | hm
            · exact h c hm
            · have hc2 : c = comb := by simpa using hm
              subst hc2
              exact ⟨ti, List.get?_mem hg1, tj, List.get?_mem hg2,
                hcond.1, hcond.2.1, hcond.2.2, hce⟩
        · exact h
    · exact h

/-- Every pending merged edge list produced by the pairwise scan comes
from a pair of nonempty tracks of the input whose combined stored time is
under the maximum. -/
theorem combine_scan_temp_sound (max_track_length : Int) (tracks : List Track) :
    ∀ c ∈ (combine_scan max_track_length tracks).2,
      mergeCandidate max_track_length tracks c := by
  unfold combine_scan
  exact combine_scan_fold_sound max_track_length tracks (pairsIdx tracks.length)
    (tracks.map (fun t => t.necessary), []) (by simp)

/-- A spliced edge list weighs exactly the sum of its two source tracks'
edge lists, for a symmetric weight function. -/
theorem combined_edges_sumW (w : Node → Node → Int) (hw : ∀ a b, w a b = w b a)
    (ti tj : Track) (c : List Edge) (h : combined_edges ti tj = some c) :
    sumW w c = sumW w ti.edges + sumW w tj.edges := by
  unfold combined_edges at h
  cases h1 : ti.edges.head? with
  | none => rw [h1] at h; exact absurd h (by simp)
  | some hi =>
    cases h2 : tj.edges.head? with
    | none => rw [h1, h2] at h; exact absurd h (by simp)
    | some hj =>
      cases h3 : ti.edges.getLast? with
      | none => rw [h1, h2, h3] at h; exact absurd h (by simp)
      | some li =>
        cases h4 : tj.edges.getLast? with
        | none => rw [h1, h2, h3, h4] at h; exact absurd h (by simp)
        | some lj =>
          rw [h1, h2, h3, h4] at h
          dsimp only at h
          split_ifs at h <;>
            injection h with h <;>
            subst h <;>
            simp only [sumW_append, sumW_revSwap w hw] <;>
            ring

/-- A successful `Service.add_track` appends the track and adds its
time. -/
theorem add_track_ok (s : Service) (t : Track) (s' : Service)
    (h : s.add_track t = .ok s') :
    s'.tracks = s.tracks ++ [t] ∧ s'.time = s.time + t.time ∧
    s'.all_critical_edges = s.all_critical_edges := by
  simp only [Service.add_track, Service.update_scores] at h
  cases hp : get_percentage_critical_edges_traversed
      (addTraversedFrom s.all_critical_edges s.critical_edges_traversed t)
      s.all_critical_edges with
  | error e => rw [hp] at h; simp [Bind.bind, Except.bind] at h
  | ok p =>
    rw [hp] at h
    simp only [Bind.bind, Except.bind, Except.ok.injEq] at h
    subst h
    exact ⟨rfl, rfl, rfl⟩

/-- A successful `Service.remove_track` erases the first equal track and
subtracts its time. -/
theorem remove_track_ok (s : Service) (t : Track) (s' : Service)
    (h : s.remove_track t = .ok s') :
    s'.tracks = s.tracks.erase t ∧ s'.time = s.time - t.time ∧
    s'.all_critical_edges = s.all_critical_edges := by
  simp only [Service.remove_track] at h
  split at h
  case isFalse => exact absurd h (by simp)
  case isTrue =>
    simp only [Service.remove_traversed_critical_edge, Service.update_scores] at h
    cases hp : get_percentage_critical_edges_traversed
        ((s.tracks.erase t).foldl (addTraversedFrom s.all_critical_edges) [])
        s.all_critical_edges with
    | error e => rw [hp] at h; simp [Bind.bind, Except.bind] at h
    | ok p =>
      rw [hp] at h
      simp only [Bind.bind, Except.bind, Except.ok.injEq] at h
      subst h
      exact ⟨rfl, rfl, rfl⟩

/-- Tracks surviving the removal fold of `combine_tracks` were already in
the accumulator service. -/
theorem removal_fold_subset :
    ∀ (l : List Track) (acc res : Service),
      l.foldlM (fun acc t =>
        if t.necessary then pure acc else acc.remove_track t) acc = .ok res →
      ∀ x ∈ res.tracks, x ∈ acc.tracks := by
  intro l
  induction l with
  | nil =>
    intro acc res h x hx
    simp only [List.foldlM_nil, pure, Except.pure, Except.ok.injEq] at h
    subst h
    exact hx
  | cons t l ih =>
    intro acc res h x hx
    rw [List.foldlM_cons] at h
    split at h
    · simp only [pure, Except.pure, Bind.bind, Except.bind] at h
      exact ih acc res h x hx
    · cases hr : acc.remove_track t with
      | error e => rw [hr] at h; simp [Bind.bind, Except.bind] at h
      | ok acc2 =>
        rw [hr] at h
        simp only [Bind.bind, Except.bind] at h
        have hx2 := ih acc2 res h x hx
        have he := (remove_track_ok acc t acc2 hr).1
        rw [he] at hx2
        exact List.mem_of_mem_erase hx2

/-- Tracks present after the addition fold of `combine_tracks` were in
the accumulator or are fresh tracks built from a pending edge list. -/
theorem addition_fold_mem (w : Node → Node → Int) :
    ∀ (l : List (List Edge)) (acc res : Service),
      l.foldlM (fun acc c =>
        acc.add_track (Track.init.add_edge_list w c)) acc = .ok res →
      ∀ x ∈ res.tracks, x ∈ acc.tracks ∨ ∃ c ∈ l, x = Track.init.add_edge_list w c := by
  intro l
  induction l with
  | nil =>
    intro acc res h x hx
    simp only [List.foldlM_nil, pure, Except.pure, Except.ok.injEq] at h
    subst h
    exact Or.inl hx
  | cons c l ih =>
    intro acc res h x hx
    rw [List.foldlM_cons] at h
    cases ha : acc.add_track (Track.init.add_edge_list w c) with
    | error e => rw [ha] at h; simp [Bind.bind, Except.bind] at h
    | ok acc2 =>
      rw [ha] at h
      simp only [Bind.bind, Except.bind] at h
      rcases ih acc2 res h x hx with hx2 | ⟨c2, hc2, hx2⟩
      · have he := (add_track_ok acc _ acc2 ha).1
        rw [he] at hx2
        rcases List.mem_append.mp hx2 with h1 | h1
        · exact Or.inl h1
        · exact Or.inr ⟨c, List.mem_cons_self _ _, by simpa using h1⟩
      · exact Or.inr ⟨c2, List.mem_cons_of_mem _ hc2, hx2⟩

/-- A track of the flag-adjusted list has the edges and time of an input
track (only the `necessary` flag may differ). -/
theorem applyFlags_mem (x : Track) :
    ∀ (l : List Track) (fl : List Bool), x ∈ applyFlags l fl →
      ∃ t0, t0 ∈ l ∧ x.edges = t0.edges ∧ x.time = t0.time := by
  intro l
  induction l with
  | nil => intro fl h; simp [applyFlags] at h
  | cons t l ih =>
    intro fl h
    cases fl with
    | nil => simp [applyFlags] at h
    | cons b fl =>
      simp only [applyFlags, List.zipWith_cons_cons, List.mem_cons] at h
      rcases h with h | h
      · exact ⟨t, List.mem_cons_self _ _, by rw [h], by rw [h]⟩
      · obtain ⟨t0, ht0, he, hti⟩ := ih fl h
        exact ⟨t0, List.mem_cons_of_mem _ ht0, he, hti⟩

/-! Contiguity of track edge sequences. -/

/-- The contiguity invariant of a track's edge sequence: the end node of
each edge equals the start node of the next. -/
def contiguous (l : List Edge) : Prop :=
  l.Chain' (fun a b => a.2 = b.1)

/-- A successful `edge_again_untraversed` drops the track's last edge
and appends it to the pool. -/
theorem edge_again_untraversed_ok (t : Track) (u : List Edge)
    (w : Node → Node → Int) (p : Track × List Edge)
    (h : edge_again_untraversed t u w = .ok p) :
    ∃ last, t.edges.getLast? = some last ∧
      p.1 = t.remove_last_edge w ∧ p.2 = u ++ [last] := by
  unfold edge_again_untraversed at h
  cases hl : t.edges.getLast? with
  | none => rw [hl] at h; exact absurd h (by simp)
  | some last =>
    rw [hl] at h
    injection h with h
    exact ⟨last, rfl, by rw [← h], by rw [← h]⟩

/-- `Track.add_edge` preserves contiguity: the guard only ever appends
an edge departing from the current last arrival. -/
theorem contiguous_add_edge (w : Node → Node → Int) (t : Track) (e : Edge)
    (h : contiguous t.edges) : contiguous (t.add_edge w e).edges := by
  unfold Track.add_edge
  split
  · rename_i hl
    have he : t.edges = [] := by simpa using hl
    simp only [Track.update_time, he]
    exact List.chain'_singleton e
  · rename_i last hl
    split
    case isTrue hlink =>
      simp only [Track.update_time]
      refine h.append (List.chain'_singleton e) ?_
      intro x hx y hy
      rw [hl] at hx
      simp at hx hy
      rw [← hx, ← hy]
      exact hlink
    case isFalse => exact h

/-- `Track.remove_last_edge` preserves contiguity. -/
theorem contiguous_remove_last (w : Node → Node → Int) (t : Track)
    (h : contiguous t.edges) : contiguous (t.remove_last_edge w).edges :=
  h.init

/-- Reversing a walk and flipping each edge preserves contiguity. -/
theorem contiguous_revSwap (l : List Edge) (h : contiguous l) :
    contiguous (revSwap l) := by
  unfold contiguous revSwap
  rw [List.chain'_map, List.chain'_reverse]
  exact h.imp (fun a b hab => hab.symm)

/-- Head of a reversed-and-flipped walk. -/
theorem revSwap_head? (l : List Edge) :
    (revSwap l).head? = l.getLast?.map (fun e => (e.2, e.1)) := by
  unfold revSwap
  rw [List.head?_map, List.head?_reverse]

/-- Last element of a reversed-and-flipped walk. -/
theorem revSwap_getLast? (l : List Edge) :
    (revSwap l).getLast? = l.head?.map (fun e => (e.2, e.1)) := by
  unfold revSwap
  rw [List.map_reverse, List.getLast?_reverse, List.head?_map]

/-- A splice of two contiguous tracks is contiguous: each of the four
endpoint-matching cases lines the junction up. -/
theorem combined_edges_contiguous (ti tj : Track) (c : List Edge)
    (hce : combined_edges ti tj = some c)
    (hi : contiguous ti.edges) (hj : contiguous tj.edges) : contiguous c := by
  unfold combined_edges at hce
  cases h1 : ti.edges.head? with
  | none => rw [h1] at hce; exact absurd hce (by simp)
  | some hi0 =>
    cases h2 : tj.edges.head? with
    | none => rw [h1, h2] at hce; exact absurd hce (by simp)
    | some hj0 =>
      cases h3 : ti.edges.getLast? with
      | none => rw [h1, h2, h3] at hce; exact absurd hce (by simp)
      | some li0 =>
        cases h4 : tj.edges.getLast? with
        | none => rw [h1, h2, h3, h4] at hce; exact absurd hce (by simp)
        | some lj0 =>
          rw [h1, h2, h3, h4] at hce
          dsimp only at hce
          split_ifs at hce with hc1 hc2 hc3 hc4 <;> injection hce with hce <;> subst hce
          · refine (contiguous_revSwap _ hj).append hi ?_
            intro x hx y hy
            rw [revSwap_getLast?, h2] at hx
            rw [h1] at hy
            simp at hx hy
            rw [← hx, ← hy]
            exact hc1.symm
          · refine hj.append hi ?_
            intro x hx y hy
            rw [h4] at hx
            rw [h1] at hy
            simp at hx hy
            rw [← hx, ← hy]
            exact hc2.symm
          · refine hi.append hj ?_
            intro x hx y hy
            rw [h3] at hx
            rw [h2] at hy
            simp at hx hy
            rw [← hx, ← hy]
            exact hc3
          · refine hj.append (contiguous_revSwap _ hi) ?_
            intro x hx y hy
            rw [h4] at hx
            rw [revSwap_head?, h3] at hy
            simp at hx hy
            rw [← hx, ← hy]
            exact hc4.symm

/-- Every track of the inner walk's resulting service is contiguous,
provided the service's tracks and the current track were. -/
theorem walk_preserves_chains (g : Graph) (maxlen : Int) :
    ∀ (fuel : Nat) (r : RandStream) (k : Nat) (u : List Edge) (track : Track)
      (service : Service) (current : Node) (log : List WalkEv)
      (res : Service × List Edge × List WalkEv × Nat),
      walk g maxlen fuel r k u track service current log = .ok res →
      (∀ t ∈ service.tracks, contiguous t.edges) → contiguous track.edges →
      ∀ t ∈ res.1.tracks, contiguous t.edges := by
  intro fuel
  induction fuel with
  | zero =>
    intro r k u track service current log res h _ _
    exact absurd h (by simp [walk])
  | succ n ih =>
    intro r k u track service current log res h hs htr
    rw [walk] at h
    dsimp only at h
    split at h
    · split at h
      · cases hea : edge_again_untraversed track u g.weight with
        | error e => rw [hea] at h; simp [Bind.bind, Except.bind] at h
        | ok p =>
          rw [hea] at h
          simp only [Bind.bind, Except.bind] at h
          cases hadd : service.add_track p.1 with
          | error e => rw [hadd] at h; simp at h
          | ok s2 =>
            rw [hadd] at h
            simp only [Except.ok.injEq] at h
            obtain ⟨last, hlast, hp1, _⟩ := edge_again_untraversed_ok _ _ _ _ hea
            have hres : res.1 = s2 := by rw [← h]
            rw [hres]
            have htracks := (add_track_ok _ _ _ hadd).1
            intro t htm
            rw [htracks] at htm
            rcases List.mem_append.mp htm with hm | hm
            · exact hs t hm
            · have ht2 : t = p.1 := by simpa using hm
              rw [ht2, hp1]
              exact contiguous_remove_last _ _ htr
      · cases hadd : service.add_track track with
        | error e => rw [hadd] at h; simp [Bind.bind, Except.bind] at h
        | ok s2 =>
          rw [hadd] at h
          simp only [Bind.bind, Except.bind, Except.ok.injEq] at h
          have hres : res.1 = s2 := by rw [← h]
          rw [hres]
          have htracks := (add_track_ok _ _ _ hadd).1
          intro t htm
          rw [htracks] at htm
          rcases List.mem_append.mp htm with hm | hm
          · exact hs t hm
          · have ht2 : t = track := by simpa using hm
            rw [ht2]
            exact htr
    · split at h
      · cases hea : edge_again_untraversed track u g.weight with
        | error e => rw [hea] at h; simp [Bind.bind, Except.bind] at h
        | ok p =>
          rw [hea] at h
          simp only [Bind.bind, Except.bind] at h
          cases hadd : service.add_track p.1 with
          | error e => rw [hadd] at h; simp at h
          | ok s2 =>
            rw [hadd] at h
            obtain ⟨last, hlast, hp1, _⟩ := edge_again_untraversed_ok _ _ _ _ hea
            refine ih r k p.2 Track.init s2 current _ res h ?_ ?_
            · have htracks := (add_track_ok _ _ _ hadd).1
              intro t htm
              rw [htracks] at htm
              rcases List.mem_append.mp htm with hm | hm
              · exact hs t hm
              · have ht2 : t = p.1 := by simpa using hm
                rw [ht2, hp1]
                exact contiguous_remove_last _ _ htr
            · exact List.chain'_nil
      · cases hnb : get_neighbour_with_untraversed_edge n r k u g current with
        | error e => rw [hnb] at h; simp [Bind.bind, Except.bind] at h
        | ok q =>
          rw [hnb] at h
          simp only [Bind.bind, Except.bind] at h
          exact ih r q.2 _ _ service q.1 _ res h hs (contiguous_add_edge _ _ _ htr)

/-- Every track of the outer construction loop's resulting service is
contiguous, provided the incoming service's tracks were. -/
theorem build_service_preserves_chains (g : Graph) (max_track_amount : Nat)
    (max_track_length : Int) :
    ∀ (fuel : Nat) (r : RandStream) (k : Nat) (service : Service) (u : List Edge)
      (log : List WalkEv) (res : Service × List Edge × List WalkEv × Nat),
      build_service g max_track_amount max_track_length fuel r k service u log = .ok res →
      (∀ t ∈ service.tracks, contiguous t.edges) →
      ∀ t ∈ res.1.tracks, contiguous t.edges := by
  intro fuel
  induction fuel with
  | zero =>
    intro r k service u log res h _
    exact absurd h (by simp [build_service])
  | succ n ih =>
    intro r k service u log res h hs
    rw [build_service] at h
    split at h
    · cases hseed : get_one_edge_node u service.all_critical_edges g r k with
      | error e => rw [hseed] at h; simp [Bind.bind, Except.bind] at h
      | ok p =>
        rw [hseed] at h
        simp only [Bind.bind, Except.bind] at h
        cases hwk : walk g max_track_length n r p.2 u Track.init service p.1 log with
        | error e => rw [hwk] at h; simp at h
        | ok q =>
          rw [hwk] at h
          have hq := walk_preserves_chains g max_track_length n r p.2 u Track.init
            service p.1 log q hwk hs List.chain'_nil
          exact ih r q.2.2.2 q.1 q.2.1 q.2.2.1 res h hq
    · simp only [Except.ok.injEq] at h
      rw [← h]
      exact hs

/-- The prune pass keeps a subset of the tracks, so contiguity of every
track is preserved. -/
theorem remove_unnecessary_preserves_chains (s : Service) (g : Graph)
    (hs : ∀ t ∈ s.tracks, contiguous t.edges) :
    ∀ t ∈ (remove_unnecessary_tracks s g).tracks, contiguous t.edges := by
  intro t ht
  unfold remove_unnecessary_tracks at ht
  exact hs t (List.mem_of_mem_filter ht)

/-- The merge pass preserves contiguity of every track: kept tracks keep
their edge lists and fresh tracks are contiguous splices. -/
theorem combine_tracks_preserves_chains (s : Service) (max_track_length : Int)
    (g : Graph) (s' : Service) (hok : combine_tracks s max_track_length g = .ok s')
    (hs : ∀ t ∈ s.tracks, contiguous t.edges) :
    ∀ t ∈ s'.tracks, contiguous t.edges := by
  unfold combine_tracks at hok
  dsimp only at hok
  split at hok
  case isFalse =>
    have hss : s' = s := by simpa using hok.symm
    subst hss
    exact hs
  case isTrue hne =>
    cases h2 : (applyFlags s.tracks (combine_scan max_track_length s.tracks).1).foldlM
        (fun acc t => if t.necessary then pure acc else acc.remove_track t)
        { s with tracks := applyFlags s.tracks (combine_scan max_track_length s.tracks).1 } with
    | error e => rw [h2] at hok; simp [Bind.bind, Except.bind] at hok
    | ok s2 =>
      rw [h2] at hok
      simp only [Bind.bind, Except.bind] at hok
      cases h3 : (combine_scan max_track_length s.tracks).2.foldlM
          (fun acc l => acc.add_track (Track.init.add_edge_list g.weight l)) s2 with
      | error e => rw [h3] at hok; simp [Except.bind] at hok
      | ok s3 =>
        rw [h3] at hok
        simp only [Except.bind, Except.ok.injEq] at hok
        subst hok
        intro t htmem
        rcases addition_fold_mem g.weight _ s2 s3 h3 t htmem with hin | ⟨c, hc, hteq⟩
        · have hin2 := removal_fold_subset _ _ s2 h2 t hin
          obtain ⟨t0, ht0, he, _⟩ := applyFlags_mem t _ _ hin2
          rw [contiguous, he]
          exact hs t0 ht0
        · obtain ⟨ti, hti, tj, htj, _, _, _, hce⟩ :=
            combine_scan_temp_sound max_track_length s.tracks c hc
          have hte : t.edges = c := by rw [hteq]; rfl
          rw [contiguous, hte]
          exact combined_edges_contiguous ti tj c hce (hs ti hti) (hs tj htj)

/-- Every track of every service collected by the per-iteration loop is
contiguous. -/
theorem algo_loop_all_contiguous (g : Graph) (max_track_amount : Nat)
    (max_track_length : Int) (fuel : Nat) (r : RandStream) :
    ∀ (n k : Nat) (acc batch : List Service),
      algo_loop g max_track_amount max_track_length fuel r n k acc = .ok batch →
      (∀ s ∈ acc, ∀ t ∈ s.tracks, contiguous t.edges) →
      ∀ s ∈ batch, ∀ t ∈ s.tracks, contiguous t.edges := by
  intro n
  induction n with
  | zero =>
    intro k acc batch h hacc
    simp only [algo_loop, Except.ok.injEq] at h
    rw [← h]
    exact hacc
  | succ m ih =>
    intro k acc batch h hacc
    rw [algo_loop] at h
    cases hgen : generate_service g max_track_amount max_track_length fuel r k with
    | error e => rw [hgen] at h; simp [Bind.bind, Except.bind] at h
    | ok p =>
      rw [hgen] at h
      simp only [Bind.bind, Except.bind] at h
      cases hcmb : combine_tracks (remove_unnecessary_tracks p.1 g) max_track_length g with
      | error e => rw [hcmb] at h; simp at h
      | ok s2 =>
        rw [hcmb] at h
        have hpre : ∀ t ∈ p.1.tracks, contiguous t.edges := by
          refine build_service_preserves_chains g max_track_amount max_track_length
            fuel r k (Service.init g) g.edges [] p ?_ ?_
          · simpa [generate_service] using hgen
          · intro t ht
            simp [Service.init] at ht
        have hs2 := combine_tracks_preserves_chains _ max_track_length g s2 hcmb
          (remove_unnecessary_preserves_chains p.1 g hpre)
        refine ih p.2.2.2 (acc ++ [s2]) batch h ?_
        intro s hsm
        rcases List.mem_append.mp hsm with hm | hm
        · exact hacc s hm
        · have hss : s = s2 := by simpa using hm
          rw [hss]
          exact hs2

/-! Edge conservation through one generation run. -/

/-- A positive `contains` test is list membership. -/
theorem contains_mem {α : Type} [BEq α] [LawfulBEq α] {l : List α} {x : α}
    (h : l.contains x = true) : x ∈ l := by
  simpa using h

/-- A successful neighbor selection always returns a neighbor connected
to the current node by a pool edge in one orientation or the other. -/
theorem get_neighbour_ok (g : Graph) (u : List Edge) (current : Node) :
    ∀ (fuel : Nat) (r : RandStream) (k : Nat) (q : Node × Nat),
      get_neighbour_with_untraversed_edge fuel r k u g current = .ok q →
      u.contains (current, q.1) = true ∨ u.contains (q.1, current) = true := by
  intro fuel
  induction fuel with
  | zero =>
    intro r k q h
    exact absurd h (by simp [get_neighbour_with_untraversed_edge])
  | succ n ih =>
    intro r k q h
    rw [get_neighbour_with_untraversed_edge] at h
    cases hc : pyChoice (g.adj current) (r k) with
    | error e => rw [hc] at h; simp [Bind.bind, Except.bind] at h
    | ok nb =>
      rw [hc] at h
      simp only [Bind.bind, Except.bind] at h
      split at h
      case isTrue hcond =>
        simp only [Except.ok.injEq] at h
        rw [← h]
        exact Bool.or_eq_true_iff.mp hcond
      case isFalse => exact ih r (k + 1) q h


/-- Occurrences of an edge in a list, counting both orientations (an
edge and its reverse are the same undirected edge). -/
def ucount (e : Edge) (l : List Edge) : Nat :=
  l.count e + l.count (e.2, e.1)

/-- Contribution of one stored edge `d` to `ucount e`. -/
def udelta (d e : Edge) : Nat :=
  (if d = e then 1 else 0) + (if d = (e.2, e.1) then 1 else 0)

/-- Concatenation of all track edge lists of a service. -/
def tracksEdges (s : Service) : List Edge :=
  s.tracks.flatMap (fun t => t.edges)

/-- Pool-removal events for an edge in either orientation. -/
def removedCount (log : List WalkEv) (e : Edge) : Nat :=
  log.count (WalkEv.removed e) + log.count (WalkEv.removed (e.2, e.1))

/-- Overflow-return events for an edge in either orientation. -/
def returnedCount (log : List WalkEv) (e : Edge) : Nat :=
  log.count (WalkEv.returned e) + log.count (WalkEv.returned (e.2, e.1))

/-- Orientation-blind counts add over concatenation. -/
theorem ucount_append (e : Edge) (l m : List Edge) :
    ucount e (l ++ m) = ucount e l + ucount e m := by
  simp only [ucount, List.count_append]
  omega

/-- Orientation-blind count of a cons cell. -/
theorem ucount_cons (e d : Edge) (l : List Edge) :
    ucount e (d :: l) = udelta d e + ucount e l := by
  simp only [ucount, udelta, List.count_cons, beq_iff_eq]
  by_cases h1 : d = e <;> by_cases h2 : d = (e.2, e.1) <;> simp [h1, h2] <;> omega

/-- Orientation-blind count of a singleton. -/
theorem ucount_singleton (e d : Edge) : ucount e [d] = udelta d e := by
  have h := ucount_cons e d []
  simpa [ucount] using h

/-- Flipping the stored edge does not change its contribution. -/
theorem udelta_swap (d e : Edge) : udelta (d.2, d.1) e = udelta d e := by
  unfold udelta
  have h1 : ((d.2, d.1) = e) ↔ (d = (e.2, e.1)) := by
    simp only [Prod.ext_iff]
    tauto
  have h2 : ((d.2, d.1) = (e.2, e.1)) ↔ (d = e) := by
    simp only [Prod.ext_iff]
    tauto
  rw [if_congr h1 rfl rfl, if_congr h2 rfl rfl]
  omega

/-- Flipping the counted edge does not change its orientation-blind
count. -/
theorem ucount_swap (e : Edge) (l : List Edge) : ucount (e.2, e.1) l = ucount e l := by
  simp only [ucount, Prod.mk.eta]
  omega

/-- Erasing one stored occurrence removes exactly its contribution. -/
theorem ucount_erase (d e : Edge) (l : List Edge) (h : d ∈ l) :
    ucount e (l.erase d) + udelta d e = ucount e l := by
  obtain ⟨l1, l2, _, hl, he⟩ := List.exists_erase_eq h
  rw [he, hl, ucount_append, ucount_append, ucount_cons]
  omega

/-- A stored edge counts at least once. -/
theorem ucount_pos_of_mem (d : Edge) (l : List Edge) (h : d ∈ l) :
    1 ≤ ucount d l := by
  have := List.count_pos_iff.mpr h
  unfold ucount
  omega

/-- An edge counts itself fully. -/
theorem udelta_self (d : Edge) : 1 ≤ udelta d d := by
  unfold udelta
  simp

/-- Removal counts add over log concatenation. -/
theorem removedCount_append (log log2 : List WalkEv) (e : Edge) :
    removedCount (log ++ log2) e = removedCount log e + removedCount log2 e := by
  simp only [removedCount, List.count_append]
  omega

/-- Return counts add over log concatenation. -/
theorem returnedCount_append (log log2 : List WalkEv) (e : Edge) :
    returnedCount (log ++ log2) e = returnedCount log e + returnedCount log2 e := by
  simp only [returnedCount, List.count_append]
  omega

/-- A single removal event counts as the removed edge's contribution. -/
theorem removedCount_removed (d e : Edge) :
    removedCount [WalkEv.removed d] e = udelta d e := by
  simp only [removedCount, udelta, List.count_cons, List.count_nil, beq_iff_eq]
  by_cases h1 : d = e <;> by_cases h2 : d = (e.2, e.1) <;> simp [h1, h2]

/-- A return event adds no removal count. -/
theorem removedCount_returned (d e : Edge) :
    removedCount [WalkEv.returned d] e = 0 := by
  simp [removedCount]

/-- A removal event adds no return count. -/
theorem returnedCount_removed (d e : Edge) :
    returnedCount [WalkEv.removed d] e = 0 := by
  simp [returnedCount]

/-- A single return event counts as the returned edge's contribution. -/
theorem returnedCount_returned (d e : Edge) :
    returnedCount [WalkEv.returned d] e = udelta d e := by
  simp only [returnedCount, udelta, List.count_cons, List.count_nil, beq_iff_eq]
  by_cases h1 : d = e <;> by_cases h2 : d = (e.2, e.1) <;> simp [h1, h2]

/-- Appending a track to a service concatenates its edges at the end. -/
theorem tracksEdges_append_track (s s' : Service) (t : Track)
    (h : s'.tracks = s.tracks ++ [t]) :
    tracksEdges s' = tracksEdges s ++ t.edges := by
  unfold tracksEdges
  rw [h]
  simp

/-- The current track, when nonempty, ends at the walk's current node;
this is how the walk maintains it, and it is what makes `Track.add_edge`
actually append. -/
def endsAt (t : Track) (current : Node) : Prop :=
  match t.edges.getLast? with
  | none => True
  | some last => last.2 = current

/-- A fresh track ends nowhere in particular. -/
theorem endsAt_init (current : Node) : endsAt Track.init current := by
  simp [endsAt, Track.init]

/-- Under the end-node link, `Track.add_edge` appends its edge. -/
theorem add_edge_appends (w : Node → Node → Int) (t : Track) (current nb : Node)
    (hlink : endsAt t current) :
    (t.add_edge w (current, nb)).edges = t.edges ++ [(current, nb)] := by
  unfold Track.add_edge
  split
  · simp [Track.update_time]
  · rename_i last heq
    have hl2 : last.2 = current := by
      unfold endsAt at hlink
      rw [heq] at hlink
      exact hlink
    rw [if_pos hl2]
    simp [Track.update_time]

/-- The extended track ends at the new current node. -/
theorem endsAt_add_edge (w : Node → Node → Int) (t : Track) (current nb : Node)
    (hlink : endsAt t current) :
    endsAt (t.add_edge w (current, nb)) nb := by
  unfold endsAt
  rw [add_edge_appends w t current nb hlink, List.getLast?_concat]

/-- An edge that contributes to `ucount e` but is absent from the graph
in both orientations cannot exist when `e` itself is absent. -/
theorem udelta_eq_zero (E : List Edge) (d e : Edge)
    (hE0 : ucount e E = 0) (hdpos : 1 ≤ ucount d E) : udelta d e = 0 := by
  unfold udelta
  by_cases c1 : d = e
  · subst c1; omega
  · by_cases c2 : d = (e.2, e.1)
    · subst c2; rw [ucount_swap] at hdpos; omega
    · simp [c1, c2]

/-- Conservation through the inner walk: the orientation-blind edge
counts of pool, current track and service always add up to the graph's,
the pool count always equals the graph count minus removals plus
returns, and edges absent from the graph see no events. -/
theorem walk_conservation (g : Graph) (maxlen : Int) :
    ∀ (fuel : Nat) (r : RandStream) (k : Nat) (u : List Edge) (track : Track)
      (service : Service) (current : Node) (log : List WalkEv)
      (res : Service × List Edge × List WalkEv × Nat),
      walk g maxlen fuel r k u track service current log = .ok res →
      endsAt track current →
      (∀ e, ucount e u + ucount e track.edges + ucount e (tracksEdges service)
          = ucount e g.edges) →
      (∀ e, ucount e u + removedCount log e
          = ucount e g.edges + returnedCount log e) →
      (∀ e, ucount e g.edges = 0 → removedCount log e = 0 ∧ returnedCount log e = 0) →
      (∀ e, ucount e res.2.1 + ucount e (tracksEdges res.1) = ucount e g.edges) ∧
      (∀ e, ucount e res.2.1 + removedCount res.2.2.1 e
          = ucount e g.edges + returnedCount res.2.2.1 e) ∧
      (∀ e, ucount e g.edges = 0 →
        removedCount res.2.2.1 e = 0 ∧ returnedCount res.2.2.1 e = 0) := by
  intro fuel
  induction fuel with
  | zero =>
    intro r k u track service current log res h _ _ _ _
    exact absurd h (by simp [walk])
  | succ n ih =>
    intro r k u track service current log res h hlink hA hB hD
    rw [walk] at h
    dsimp only at h
    split at h
    · split at h
      · cases hea : edge_again_untraversed track u g.weight with
        | error e => rw [hea] at h; simp [Bind.bind, Except.bind] at h
        | ok p =>
          rw [hea] at h
          simp only [Bind.bind, Except.bind] at h
          obtain ⟨last, hlast, hp1, hp2⟩ := edge_again_untraversed_ok _ _ _ _ hea
          rw [hlast] at h
          dsimp only at h
          cases hadd : service.add_track p.1 with
          | error e => rw [hadd] at h; simp at h
          | ok s2 =>
            rw [hadd] at h
            simp only [Except.ok.injEq] at h
            have hdecomp : track.edges = track.edges.dropLast ++ [last] :=
              (List.dropLast_append_getLast? last hlast).symm
            have hmem : last ∈ track.edges := by
              rw [hdecomp]
              simp
            have hTE : tracksEdges s2 = tracksEdges service ++ p.1.edges :=
              tracksEdges_append_track _ _ _ (add_track_ok _ _ _ hadd).1
            have hp1e : p.1.edges = track.edges.dropLast := by
              rw [hp1]; rfl
            rw [← h]
            dsimp only
            refine ⟨?_, ?_, ?_⟩
            · intro e
              have hAe := hA e
              rw [hdecomp, ucount_append, ucount_singleton] at hAe
              rw [hp2, hTE, hp1e, ucount_append, ucount_append, ucount_singleton]
              omega
            · intro e
              have hBe := hB e
              rw [hp2, ucount_append, ucount_singleton, removedCount_append,
                returnedCount_append, removedCount_returned, returnedCount_returned]
              omega
            · intro e hE0
              have hDe := hD e hE0
              have hud : udelta last e = 0 := by
                refine udelta_eq_zero g.edges last e hE0 ?_
                have hAl := hA last
                have hpos := ucount_pos_of_mem last track.edges hmem
                omega
              rw [removedCount_append, returnedCount_append, removedCount_returned,
                returnedCount_returned, hud]
              omega
      · cases hadd : service.add_track track with
        | error e => rw [hadd] at h; simp [Bind.bind, Except.bind] at h
        | ok s2 =>
          rw [hadd] at h
          simp only [Bind.bind, Except.bind, Except.ok.injEq] at h
          have hTE : tracksEdges s2 = tracksEdges service ++ track.edges :=
            tracksEdges_append_track _ _ _ (add_track_ok _ _ _ hadd).1
          rw [← h]
          dsimp only
          refine ⟨?_, ?_, ?_⟩
          · intro e
            have hAe := hA e
            rw [hTE, ucount_append]
            omega
          · exact hB
          · exact hD
    · split at h
      · cases hea : edge_again_untraversed track u g.weight with
        | error e => rw [hea] at h; simp [Bind.bind, Except.bind] at h
        | ok p =>
          rw [hea] at h
          simp only [Bind.bind, Except.bind] at h
          obtain ⟨last, hlast, hp1, hp2⟩ := edge_again_untraversed_ok _ _ _ _ hea
          rw [hlast] at h
          dsimp only at h
          cases hadd : service.add_track p.1 with
          | error e => rw [hadd] at h; simp at h
          | ok s2 =>
            rw [hadd] at h
            have hdecomp : track.edges = track.edges.dropLast ++ [last] :=
              (List.dropLast_append_getLast? last hlast).symm
            have hmem : last ∈ track.edges := by
              rw [hdecomp]
              simp
            have hTE : tracksEdges s2 = tracksEdges service ++ p.1.edges :=
              tracksEdges_append_track _ _ _ (add_track_ok _ _ _ hadd).1
            have hp1e : p.1.edges = track.edges.dropLast := by
              rw [hp1]; rfl
            refine ih r k p.2 Track.init s2 current _ res h (endsAt_init current)
              ?_ ?_ ?_
            · intro e
              have hAe := hA e
              rw [hdecomp, ucount_append, ucount_singleton] at hAe
              rw [hp2, hTE, hp1e, ucount_append, ucount_append, ucount_singleton]
              have h0 : ucount e Track.init.edges = 0 := rfl
              omega
            · intro e
              have hBe := hB e
              rw [hp2, ucount_append, ucount_singleton, removedCount_append,
                returnedCount_append, removedCount_returned, returnedCount_returned]
              omega
            · intro e hE0
              have hDe := hD e hE0
              have hud : udelta last e = 0 := by
                refine udelta_eq_zero g.edges last e hE0 ?_
                have hAl := hA last
                have hpos := ucount_pos_of_mem last track.edges hmem
                omega
              rw [removedCount_append, returnedCount_append, removedCount_returned,
                returnedCount_returned, hud]
              omega
      · cases hnb : get_neighbour_with_untraversed_edge n r k u g current with
        | error e => rw [hnb] at h; simp [Bind.bind, Except.bind] at h
        | ok q =>
          rw [hnb] at h
          simp only [Bind.bind, Except.bind] at h
          have hval := get_neighbour_ok g u current n r k q hnb
          have happ := add_edge_appends g.weight track current q.1 hlink
          have hlink2 := endsAt_add_edge g.weight track current q.1 hlink
          by_cases hc1 : u.contains (current, q.1) = true
          · rw [if_pos hc1] at h
            have hdmem := contains_mem hc1
            refine ih r q.2 _ _ service q.1 _ res h hlink2 ?_ ?_ ?_
            · intro e
              have hAe := hA e
              have her := ucount_erase (current, q.1) e u hdmem
              rw [happ, ucount_append, ucount_singleton]
              dsimp only
              omega
            · intro e
              have hBe := hB e
              have her := ucount_erase (current, q.1) e u hdmem
              rw [removedCount_append, returnedCount_append, removedCount_removed,
                returnedCount_removed]
              dsimp only
              omega
            · intro e hE0
              have hDe := hD e hE0
              have hud : udelta (current, q.1) e = 0 := by
                refine udelta_eq_zero g.edges (current, q.1) e hE0 ?_
                have hAl := hA (current, q.1)
                have hpos := ucount_pos_of_mem (current, q.1) u hdmem
                omega
              rw [removedCount_append, returnedCount_append, removedCount_removed,
                returnedCount_removed, hud]
              omega
          · rw [if_neg hc1] at h
            by_cases hc2 : u.contains (q.1, current) = true
            · rw [if_pos hc2] at h
              have hdmem := contains_mem hc2
              have hsw : udelta (current, q.1) = udelta ((q.1, current).2, (q.1, current).1) :=
                rfl
              refine ih r q.2 _ _ service q.1 _ res h hlink2 ?_ ?_ ?_
              · intro e
                have hAe := hA e
                have her := ucount_erase (q.1, current) e u hdmem
                rw [happ, ucount_append, ucount_singleton, hsw, udelta_swap]
                dsimp only
                omega
              · intro e
                have hBe := hB e
                have her := ucount_erase (q.1, current) e u hdmem
                rw [removedCount_append, returnedCount_append, removedCount_removed,
                  returnedCount_removed]
                dsimp only
                omega
              · intro e hE0
                have hDe := hD e hE0
                have hud : udelta (q.1, current) e = 0 := by
                  refine udelta_eq_zero g.edges (q.1, current) e hE0 ?_
                  have hAl := hA (q.1, current)
                  have hpos := ucount_pos_of_mem (q.1, current) u hdmem
                  omega
                rw [removedCount_append, returnedCount_append, removedCount_removed,
                  returnedCount_removed, hud]
                omega
            · rcases hval with hv | hv
              · exact absurd hv hc1
              · exact absurd hv hc2

/-- Conservation through the outer construction loop of one generation
run. -/
theorem build_conservation (g : Graph) (max_track_amount : Nat)
    (max_track_length : Int) :
    ∀ (fuel : Nat) (r : RandStream) (k : Nat) (service : Service) (u : List Edge)
      (log : List WalkEv) (res : Service × List Edge × List WalkEv × Nat),
      build_service g max_track_amount max_track_length fuel r k service u log = .ok res →
      (∀ e, ucount e u + ucount e (tracksEdges service) = ucount e g.edges) →
      (∀ e, ucount e u + removedCount log e
          = ucount e g.edges + returnedCount log e) →
      (∀ e, ucount e g.edges = 0 → removedCount log e = 0 ∧ returnedCount log e = 0) →
      (∀ e, ucount e res.2.1 + ucount e (tracksEdges res.1) = ucount e g.edges) ∧
      (∀ e, ucount e res.2.1 + removedCount res.2.2.1 e
          = ucount e g.edges + returnedCount res.2.2.1 e) ∧
      (∀ e, ucount e g.edges = 0 →
        removedCount res.2.2.1 e = 0 ∧ returnedCount res.2.2.1 e = 0) := by
  intro fuel
  induction fuel with
  | zero =>
    intro r k service u log res h _ _ _
    exact absurd h (by simp [build_service])
  | succ n ih =>
    intro r k service u log res h hA hB hD
    rw [build_service] at h
    split at h
    · cases hseed : get_one_edge_node u service.all_critical_edges g r k with
      | error e => rw [hseed] at h; simp [Bind.bind, Except.bind] at h
      | ok p =>
        rw [hseed] at h
        simp only [Bind.bind, Except.bind] at h
        cases hwk : walk g max_track_length n r p.2 u Track.init service p.1 log with
        | error e => rw [hwk] at h; simp at h
        | ok q =>
          rw [hwk] at h
          dsimp only at h
          have hw := walk_conservation g max_track_length n r p.2 u Track.init
            service p.1 log q hwk (endsAt_init p.1) ?_ hB hD
          · exact ih r q.2.2.2 q.1 q.2.1 q.2.2.1 res h hw.1 hw.2.1 hw.2.2
          · intro e
            have h0 : ucount e Track.init.edges = 0 := rfl
            have hAe := hA e
            omega
    · simp only [Except.ok.injEq] at h
      rw [← h]
      exact ⟨hA, hB, hD⟩

/-- The pre-optimization service of the overflow scenario on `gBC`: one
track carrying only the edge (a, b). -/
def svcBC : Service :=
  { tracks := [{ edges := [("a", "b")], necessary := true, time := 5 }]
    all_critical_edges := [("a", "b")]
    critical_edges_traversed := [("a", "b")]
    time := 5
    percen_critical_edges_traversed := 1
    score := get_score 1 1 5 }

/-- The pool-event log of the overflow scenario on `gBC`: both edges are
removed from the pool, then the overflow correction returns (b, c). -/
def logBC : List WalkEv :=
  [WalkEv.removed ("a", "b"), WalkEv.removed ("b", "c"), WalkEv.returned ("b", "c")]

/-! Symbolic execution of the concrete path-graph scenario. -/

/-- Walking `pathG` from node d with an empty pool and the full a→b→c→d
track finishes the track: the service receives it and becomes `svcA`. -/
theorem walk_pathG_A3 (m : Nat) (r : RandStream) (k : Nat) (log : List WalkEv)
    (res : Service × List Edge × List WalkEv × Nat)
    (h : walk pathG 100 m r k [] trackA (Service.init pathG) "d" log = .ok res) :
    res.1 = svcA ∧ res.2.1 = [] := by
  cases m with
  | zero => exact absurd h (by simp [walk])
  | succ n =>
    have he : walk pathG 100 (n + 1) r k [] trackA (Service.init pathG) "d" log
        = .ok (svcA, [], log, k) := rfl
    rw [he] at h
    injection h with h
    rw [← h]
    exact ⟨rfl, rfl⟩

/-- Walking `pathG` from node c with pool {(c, d)} and the a→b→c track:
the only admissible neighbor is d, and the walk finishes as `svcA`. -/
theorem walk_pathG_A2 (m : Nat) (r : RandStream) (k : Nat) (log : List WalkEv)
    (res : Service × List Edge × List WalkEv × Nat)
    (h : walk pathG 100 m r k [("c", "d")]
      { edges := [("a", "b"), ("b", "c")], necessary := true, time := 10 }
      (Service.init pathG) "c" log = .ok res) :
    res.1 = svcA ∧ res.2.1 = [] := by
  cases m with
  | zero => exact absurd h (by simp [walk])
  | succ n =>
    rw [walk] at h
    dsimp only at h
    split at h
    case isTrue hcond => exact absurd hcond (by decide)
    case isFalse =>
      split at h
      case isTrue hcond => exact absurd hcond (by decide)
      case isFalse =>
        cases hnb : get_neighbour_with_untraversed_edge n r k [("c", "d")] pathG "c" with
        | error e => rw [hnb] at h; simp [Bind.bind, Except.bind] at h
        | ok q =>
          rw [hnb] at h
          simp only [Bind.bind, Except.bind] at h
          have hq1 : q.1 = "d" := by
            rcases get_neighbour_ok pathG _ _ n r k q hnb with hv | hv
            · have hm := contains_mem hv
              simp at hm
              exact hm
            · have hm := contains_mem hv
              simp at hm
          rw [hq1] at h
          exact walk_pathG_A3 n r q.2 _ res h

/-- Walking `pathG` from node b with pool {(b, c), (c, d)} and the a→b
track: the only admissible neighbor is c. -/
theorem walk_pathG_A1 (m : Nat) (r : RandStream) (k : Nat) (log : List WalkEv)
    (res : Service × List Edge × List WalkEv × Nat)
    (h : walk pathG 100 m r k [("b", "c"), ("c", "d")]
      { edges := [("a", "b")], necessary := true, time := 5 }
      (Service.init pathG) "b" log = .ok res) :
    res.1 = svcA ∧ res.2.1 = [] := by
  cases m with
  | zero => exact absurd h (by simp [walk])
  | succ n =>
    rw [walk] at h
    dsimp only at h
    split at h
    case isTrue hcond => exact absurd hcond (by decide)
    case isFalse =>
      split at h
      case isTrue hcond => exact absurd hcond (by decide)
      case isFalse =>
        cases hnb : get_neighbour_with_untraversed_edge n r k
            [("b", "c"), ("c", "d")] pathG "b" with
        | error e => rw [hnb] at h; simp [Bind.bind, Except.bind] at h
        | ok q =>
          rw [hnb] at h
          simp only [Bind.bind, Except.bind] at h
          have hq1 : q.1 = "c" := by
            rcases get_neighbour_ok pathG _ _ n r k q hnb with hv | hv
            · have hm := contains_mem hv
              simp at hm
              exact hm
            · have hm := contains_mem hv
              simp at hm
          rw [hq1] at h
          exact walk_pathG_A2 n r q.2 _ res h

/-- Walking `pathG` from seed node a with the full pool and a fresh
track: the only admissible neighbor is b, and the walk produces `svcA`
with an empty pool. -/
theorem walk_pathG_A0 (m : Nat) (r : RandStream) (k : Nat) (log : List WalkEv)
    (res : Service × List Edge × List WalkEv × Nat)
    (h : walk pathG 100 m r k pathG.edges Track.init (Service.init pathG) "a" log
      = .ok res) :
    res.1 = svcA ∧ res.2.1 = [] := by
  cases m with
  | zero => exact absurd h (by simp [walk])
  | succ n =>
    rw [walk] at h
    dsimp only at h
    split at h
    case isTrue hcond => exact absurd hcond (by decide)
    case isFalse =>
      split at h
      case isTrue hcond => exact absurd hcond (by decide)
      case isFalse =>
        cases hnb : get_neighbour_with_untraversed_edge n r k pathG.edges pathG "a" with
        | error e => rw [hnb] at h; simp [Bind.bind, Except.bind] at h
        | ok q =>
          rw [hnb] at h
          simp only [Bind.bind, Except.bind] at h
          have hq1 : q.1 = "b" := by
            rcases get_neighbour_ok pathG _ _ n r k q hnb with hv | hv
            · have hm := contains_mem hv
              simp [pathG] at hm
              exact hm
            · have hm := contains_mem hv
              simp [pathG] at hm
          rw [hq1] at h
          exact walk_pathG_A1 n r q.2 _ res h

/-- Walking `pathG` from node a with an empty pool and the full d→c→b→a
track finishes the track: the service becomes `svcD`. -/
theorem walk_pathG_D3 (m : Nat) (r : RandStream) (k : Nat) (log : List WalkEv)
    (res : Service × List Edge × List WalkEv × Nat)
    (h : walk pathG 100 m r k [] trackD (Service.init pathG) "a" log = .ok res) :
    res.1 = svcD ∧ res.2.1 = [] := by
  cases m with
  | zero => exact absurd h (by simp [walk])
  | succ n =>
    have he : walk pathG 100 (n + 1) r k [] trackD (Service.init pathG) "a" log
        = .ok (svcD, [], log, k) := rfl
    rw [he] at h
    injection h with h
    rw [← h]
    exact ⟨rfl, rfl⟩

/-- Walking `pathG` from node b with pool {(a, b)} and the d→c→b track:
the only admissible neighbor is a. -/
theorem walk_pathG_D2 (m : Nat) (r : RandStream) (k : Nat) (log : List WalkEv)
    (res : Service × List Edge × List WalkEv × Nat)
    (h : walk pathG 100 m r k [("a", "b")]
      { edges := [("d", "c"), ("c", "b")], necessary := true, time := 10 }
      (Service.init pathG) "b" log = .ok res) :
    res.1 = svcD ∧ res.2.1 = [] := by
  cases m with
  | zero => exact absurd h (by simp [walk])
  | succ n =>
    rw [walk] at h
    dsimp only at h
    split at h
    case isTrue hcond => exact absurd hcond (by decide)
    case isFalse =>
      split at h
      case isTrue hcond => exact absurd hcond (by decide)
      case isFalse =>
        cases hnb : get_neighbour_with_untraversed_edge n r k [("a", "b")] pathG "b" with
        | error e => rw [hnb] at h; simp [Bind.bind, Except.bind] at h
        | ok q =>
          rw [hnb] at h
          simp only [Bind.bind, Except.bind] at h
          have hq1 : q.1 = "a" := by
            rcases get_neighbour_ok pathG _ _ n r k q hnb with hv | hv
            · have hm := contains_mem hv
              simp at hm
            · have hm := contains_mem hv
              simp at hm
              exact hm
          rw [hq1] at h
          exact walk_pathG_D3 n r q.2 _ res h

/-- Walking `pathG` from node c with pool {(a, b), (b, c)} and the d→c
track: the only admissible neighbor is b. -/
theorem walk_pathG_D1 (m : Nat) (r : RandStream) (k : Nat) (log : List WalkEv)
    (res : Service × List Edge × List WalkEv × Nat)
    (h : walk pathG 100 m r k [("a", "b"), ("b", "c")]
      { edges := [("d", "c")], necessary := true, time := 5 }
      (Service.init pathG) "c" log = .ok res) :
    res.1 = svcD ∧ res.2.1 = [] := by
  cases m with
  | zero => exact absurd h (by simp [walk])
  | succ n =>
    rw [walk] at h
    dsimp only at h
    split at h
    case isTrue hcond => exact absurd hcond (by decide)
    case isFalse =>
      split at h
      case isTrue hcond => exact absurd hcond (by decide)
      case isFalse =>
        cases hnb : get_neighbour_with_untraversed_edge n r k
            [("a", "b"), ("b", "c")] pathG "c" with
        | error e => rw [hnb] at h; simp [Bind.bind, Except.bind] at h
        | ok q =>
          rw [hnb] at h
          simp only [Bind.bind, Except.bind] at h
          have hq1 : q.1 = "b" := by
            rcases get_neighbour_ok pathG _ _ n r k q hnb with hv | hv
            · have hm := contains_mem hv
              simp at hm
            · have hm := contains_mem hv
              simp at hm
              exact hm
          rw [hq1] at h
          exact walk_pathG_D2 n r q.2 _ res h

/-- Walking `pathG` from seed node d with the full pool and a fresh
track: the only admissible neighbor is c, and the walk produces `svcD`
with an empty pool. -/
theorem walk_pathG_D0 (m : Nat) (r : RandStream) (k : Nat) (log : List WalkEv)
    (res : Service × List Edge × List WalkEv × Nat)
    (h : walk pathG 100 m r k pathG.edges Track.init (Service.init pathG) "d" log
      = .ok res) :
    res.1 = svcD ∧ res.2.1 = [] := by
  cases m with
  | zero => exact absurd h (by simp [walk])
  | succ n =>
    rw [walk] at h
    dsimp only at h
    split at h
    case isTrue hcond => exact absurd hcond (by decide)
    case isFalse =>
      split at h
      case isTrue hcond => exact absurd hcond (by decide)
      case isFalse =>
        cases hnb : get_neighbour_with_untraversed_edge n r k pathG.edges pathG "d" with
        | error e => rw [hnb] at h; simp [Bind.bind, Except.bind] at h
        | ok q =>
          rw [hnb] at h
          simp only [Bind.bind, Except.bind] at h
          have hq1 : q.1 = "c" := by
            rcases get_neighbour_ok pathG _ _ n r k q hnb with hv | hv
            · have hm := contains_mem hv
              simp [pathG] at hm
            · have hm := contains_mem hv
              simp [pathG] at hm
              exact hm
          rw [hq1] at h
          exact walk_pathG_D1 n r q.2 _ res h

/-- Seed selection on the full `pathG` pool: the one-pool-edge nodes are
a and d (the critical tier being dead code), so the seed is decided by
the parity of the draw. -/
theorem seed_pathG_eq (r : RandStream) (k : Nat) :
    get_one_edge_node pathG.edges (Service.init pathG).all_critical_edges pathG r k
      = .ok (["a", "d"].getD (r k % 2) "a", k + 1) := rfl

/-- The outer loop exits immediately on an empty pool. -/
theorem build_pathG_done (fuel : Nat) (r : RandStream) (k : Nat) (svc : Service)
    (log : List WalkEv) (res : Service × List Edge × List WalkEv × Nat)
    (h : build_service pathG 1 100 fuel r k svc [] log = .ok res) :
    res.1 = svc ∧ res.2.1 = [] := by
  cases fuel with
  | zero => exact absurd h (by simp [build_service])
  | succ n =>
    rw [build_service] at h
    split at h
    case isTrue hcond => exact absurd rfl hcond.1
    case isFalse =>
      simp only [Except.ok.injEq] at h
      rw [← h]
      exact ⟨rfl, rfl⟩

/-- Any successful generation run over `pathG` with a track cap of 1 and
maximum track time 100 produces `svcA` or `svcD` and an empty pool, for
every draw stream and every fuel. -/
theorem build_pathG (fuel : Nat) (r : RandStream) (k : Nat)
    (res : Service × List Edge × List WalkEv × Nat)
    (h : build_service pathG 1 100 fuel r k (Service.init pathG) pathG.edges []
      = .ok res) :
    (res.1 = svcA ∨ res.1 = svcD) ∧ res.2.1 = [] := by
  cases fuel with
  | zero => exact absurd h (by simp [build_service])
  | succ n =>
    rw [build_service] at h
    split at h
    case isFalse hcond => exact absurd (by decide) hcond
    case isTrue =>
      rw [seed_pathG_eq] at h
      simp only [Bind.bind, Except.bind] at h
      rcases Nat.mod_two_eq_zero_or_one (r k) with h0 | h0 <;> rw [h0] at h
      · have hg : (["a", "d"].getD (0 : Nat) "a") = "a" := rfl
        rw [hg] at h
        cases hwk : walk pathG 100 n r (k + 1) pathG.edges Track.init
            (Service.init pathG) "a" [] with
        | error e => rw [hwk] at h; simp at h
        | ok q =>
          rw [hwk] at h
          dsimp only at h
          obtain ⟨hq1, hq2⟩ := walk_pathG_A0 n r (k + 1) [] q hwk
          rw [hq1, hq2] at h
          obtain ⟨h1, h2⟩ := build_pathG_done n r q.2.2.2 svcA q.2.2.1 res h
          exact ⟨Or.inl h1, h2⟩
      · have hg : (["a", "d"].getD (1 : Nat) "a") = "d" := rfl
        rw [hg] at h
        cases hwk : walk pathG 100 n r (k + 1) pathG.edges Track.init
            (Service.init pathG) "d" [] with
        | error e => rw [hwk] at h; simp at h
        | ok q =>
          rw [hwk] at h
          dsimp only at h
          obtain ⟨hq1, hq2⟩ := walk_pathG_D0 n r (k + 1) [] q hwk
          rw [hq1, hq2] at h
          obtain ⟨h1, h2⟩ := build_pathG_done n r q.2.2.2 svcD q.2.2.1 res h
          exact ⟨Or.inr h1, h2⟩

/-! Claims. -/

/-- C1: the spec's Service invariant — total time equals the sum of the
member tracks' times and the score is recomputed on every structural
mutation — is broken by the prune pass: `remove_unnecessary_tracks`
reassigns `service.tracks` directly, so after pruning away the only
(non-critical) track the service still reports time 5 while its tracks
sum to 0, and its score is not the score recomputed from the current
coverage fraction, track count and total time. -/
theorem claim_C1_prune_pass_breaks_service_invariant :
    (Service.init gW).add_track tNC = .ok sNC ∧
    (remove_unnecessary_tracks sNC gW).tracks = [] ∧
    (remove_unnecessary_tracks sNC gW).time = 5 ∧
    totalTrackTime (remove_unnecessary_tracks sNC gW).tracks = 0 ∧
    (remove_unnecessary_tracks sNC gW).score ≠
      get_score (remove_unnecessary_tracks sNC gW).percen_critical_edges_traversed
        (remove_unnecessary_tracks sNC gW).tracks.length
        (remove_unnecessary_tracks sNC gW).time := by
  refine ⟨by decide, by decide, by decide, by decide, by decide⟩

/-- C2: `get_percentage_critical_edges_traversed` performs an unguarded
division, so on a graph whose critical-edge set is empty it raises
`ZeroDivisionError` instead of returning 0, and a whole generation run
on such a graph (here `gNC`) aborts with that fault the first time a
track is added. -/
theorem claim_C2_zero_critical_edges_division_fault :
    (∀ traversed : List Edge,
      get_percentage_critical_edges_traversed traversed [] = .error .zeroDivision) ∧
    algo gNC 5 100 1 30 (fun k => k) = .error .zeroDivision := by
  exact ⟨fun _ => rfl, by decide⟩

/-- C3: appending an edge whose departure station does not match the
track's last arrival station is a silent no-op of `Track.add_edge`: the
call returns the track unchanged (edge sequence and time intact) and
the caller receives no error value of any kind — the source only prints
a message. -/
theorem claim_C3_add_edge_violation_is_silent_noop :
    Track.add_edge (fun _ _ => 5)
        { edges := [("a", "b")], necessary := true, time := 5 } ("c", "d")
      = { edges := [("a", "b")], necessary := true, time := 5 } := by
  decide

/-- C4: the neighbor-selection step has no terminating bound: at node b
of `pathG` with the pool edge (b, c) touching b (so the claim's
precondition holds), the draw stream that always selects neighbor a
makes `get_neighbour_with_untraversed_edge` resample forever — no
amount of fuel suffices. -/
theorem claim_C4_neighbour_resampling_unbounded :
    ∀ fuel k : Nat,
      get_neighbour_with_untraversed_edge fuel (fun _ => 0) k [("b", "c")] pathG "b"
        = .error .outOfFuel := by
  intro fuel
  induction fuel with
  | zero => intro k; rfl
  | succ n ih =>
    intro k
    have hstep :
        get_neighbour_with_untraversed_edge (n + 1) (fun _ => 0) k [("b", "c")] pathG "b"
          = get_neighbour_with_untraversed_edge n (fun _ => 0) (k + 1) [("b", "c")] pathG "b" := by
      rfl
    rw [hstep]
    exact ih (k + 1)

/-- Python `==` never equates a node identifier with an edge tuple. -/
theorem pyEq_node_edge_false (n : Node) (e : Edge) : pyEq_node_edge n e = false := by
  simp [pyEq_node_edge, pyNodeVal, pyEdgeVal]

/-- C5: the critical-node preference tier of `get_one_edge_node` is dead
code — the Python test `node in service.all_critical_edges` compares a
node identifier against edge tuples and never succeeds — so the function
always behaves like the two lower tiers (a uniformly random node with
one touching pool edge, else a uniformly random graph node); concretely,
with pool edge (a, b) critical (node a critical) and draw 1 it returns
node b although the claim requires the critical node a. -/
theorem claim_C5_seed_critical_preference_never_taken :
    (∀ (u all_critical_edges : List Edge) (g : Graph) (r : RandStream) (k : Nat),
      (((counterKeys (flat_endpoints u)).filter
          (fun n => (flat_endpoints u).count n == 1)).filter
          (fun n => all_critical_edges.any (fun e => pyEq_node_edge n e)) = []) ∧
      get_one_edge_node u all_critical_edges g r k =
        (let nodes_with_one_edge := (counterKeys (flat_endpoints u)).filter
            (fun n => (flat_endpoints u).count n == 1)
         if nodes_with_one_edge ≠ [] then
           (pyChoice nodes_with_one_edge (r k)).map (fun n => (n, k + 1))
         else (pyChoice g.nodes (r k)).map (fun n => (n, k + 1)))) ∧
    get_one_edge_node [("a", "b")] [("a", "b")] gNC (fun _ => 1) 0 = .ok ("b", 1) := by
  constructor
  · intro u crit g r k
    have hdead : ((counterKeys (flat_endpoints u)).filter
        (fun n => (flat_endpoints u).count n == 1)).filter
        (fun n => crit.any (fun e => pyEq_node_edge n e)) = [] := by
      apply List.filter_eq_nil_iff.mpr
      intro n _
      simp [pyEq_node_edge_false]
    refine ⟨hdead, ?_⟩
    simp only [get_one_edge_node, hdead]
    simp
  · decide

/-- C10: `remove_last_edge` on a track with an empty edge sequence is
total: Python's `self.edges[:-1]` on an empty list is the empty list, so
the edge sequence stays empty and the recomputed time is 0. -/
theorem claim_C10_remove_last_edge_total_on_empty :
    ∀ (w : Node → Node → Int) (t : Track), t.edges = [] →
      (t.remove_last_edge w).edges = [] ∧ (t.remove_last_edge w).time = 0 := by
  intro w t h
  simp [Track.remove_last_edge, h, sumW]

/-- The track the merge pass builds from `sW`'s two tracks. -/
def tM : Track := { edges := [("a", "b"), ("b", "c")], necessary := true, time := 10 }

/-- C9: every track of a successfully merged service either carries the
edge list and time of a track of the input service, or is a merge-pass
product whose recomputed time equals the combined time of its two source
tracks, a combination only attempted below the configured maximum track
length — so no merge-produced track exceeds that maximum. -/
theorem claim_C9_merge_never_exceeds_max (s : Service) (max_track_length : Int)
    (g : Graph) (s' : Service)
    (hw : ∀ a b, g.weight a b = g.weight b a)
    (ht : ∀ t ∈ s.tracks, t.time = sumW g.weight t.edges)
    (hok : combine_tracks s max_track_length g = .ok s') :
    ∀ t ∈ s'.tracks,
      (∃ t0 ∈ s.tracks, t.edges = t0.edges ∧ t.time = t0.time) ∨
      (t.time < max_track_length ∧ t.time = sumW g.weight t.edges ∧
        ∃ ti ∈ s.tracks, ∃ tj ∈ s.tracks, t.time = ti.time + tj.time) := by
  unfold combine_tracks at hok
  dsimp only at hok
  split at hok
  case isFalse =>
    have hs : s' = s := by
      simpa using hok.symm
    subst hs
    intro t htmem
    exact Or.inl ⟨t, htmem, rfl, rfl⟩
  case isTrue hne =>
    cases h2 : (applyFlags s.tracks (combine_scan max_track_length s.tracks).1).foldlM
        (fun acc t => if t.necessary then pure acc else acc.remove_track t)
        { s with tracks := applyFlags s.tracks (combine_scan max_track_length s.tracks).1 } with
    | error e => rw [h2] at hok; simp [Bind.bind, Except.bind] at hok
    | ok s2 =>
      rw [h2] at hok
      simp only [Bind.bind, Except.bind] at hok
      cases h3 : (combine_scan max_track_length s.tracks).2.foldlM
          (fun acc l => acc.add_track (Track.init.add_edge_list g.weight l)) s2 with
      | error e => rw [h3] at hok; simp [Except.bind] at hok
      | ok s3 =>
        rw [h3] at hok
        simp only [Except.bind, Except.ok.injEq] at hok
        subst hok
        intro t htmem
        rcases addition_fold_mem g.weight _ s2 s3 h3 t htmem with hin | ⟨c, hc, hteq⟩
        · have hin2 := removal_fold_subset _ _ s2 h2 t hin
          obtain ⟨t0, ht0, he, hti⟩ := applyFlags_mem t _ _ hin2
          exact Or.inl ⟨t0, ht0, he, hti⟩
        · obtain ⟨ti, hti, tj, htj, hlt, _, _, hce⟩ :=
            combine_scan_temp_sound max_track_length s.tracks c hc
          have hsum := combined_edges_sumW g.weight hw ti tj c hce
          have httime : t.time = sumW g.weight c := by
            rw [hteq]; rfl
          have hcomb : t.time = ti.time + tj.time := by
            rw [httime, hsum, ht ti hti, ht tj htj]
          refine Or.inr ⟨?_, ?_, ti, hti, tj, htj, hcomb⟩
          · rw [hcomb]; exact hlt
          · rw [httime, hteq]; rfl

/-- Witness for C9: merging the two one-edge tracks of `sW` under
maximum 100 produces the two-edge track `tM` with time 10 = 5 + 5. -/
theorem claim_C9_witness :
    (∃ t0 ∈ sW.tracks, tM.edges = t0.edges ∧ tM.time = t0.time) ∨
    (tM.time < 100 ∧ tM.time = sumW gW.weight tM.edges ∧
      ∃ ti ∈ sW.tracks, ∃ tj ∈ sW.tracks, tM.time = ti.time + tj.time) :=
  claim_C9_merge_never_exceeds_max sW 100 gW
    { tracks := [tM]
      all_critical_edges := [("a", "b")]
      critical_edges_traversed := [("a", "b")]
      time := 10
      percen_critical_edges_traversed := 1
      score := get_score 1 1 10 }
    (fun _ _ => rfl) (by decide) (by decide) tM (by decide)

/-- Unrolling of a one-iteration `algo_loop` run into its generation and
optimization stages. -/
theorem algo_loop_one (g : Graph) (max_track_amount : Nat) (max_track_length : Int)
    (fuel : Nat) (r : RandStream) (k : Nat) (acc batch : List Service)
    (h : algo_loop g max_track_amount max_track_length fuel r 1 k acc = .ok batch) :
    ∃ p s2, generate_service g max_track_amount max_track_length fuel r k = .ok p ∧
      combine_tracks (remove_unnecessary_tracks p.1 g) max_track_length g = .ok s2 ∧
      batch = acc ++ [s2] := by
  rw [show (1 : Nat) = 0 + 1 from rfl] at h
  rw [algo_loop] at h
  cases hgen : generate_service g max_track_amount max_track_length fuel r k with
  | error e => rw [hgen] at h; simp [Bind.bind, Except.bind] at h
  | ok p =>
    rw [hgen] at h
    simp only [Bind.bind, Except.bind] at h
    cases hcmb : combine_tracks (remove_unnecessary_tracks p.1 g) max_track_length g with
    | error e => rw [hcmb] at h; simp at h
    | ok s2 =>
      rw [hcmb] at h
      dsimp only at h
      simp only [algo_loop, Except.ok.injEq] at h
      exact ⟨p, s2, rfl, hcmb, h.symm⟩

/-- C7: on the 4-node path graph with three weight-5 edges, one critical
end node, a track cap of 1, a maximum track time of 100 and one
iteration, every terminating run — whatever the random draws — returns a
batch of exactly one service holding exactly one track that covers all
three edges (in one orientation or the other), with total time 15 and
coverage fraction 1. -/
theorem claim_C7_path_graph_scenario (fuel : Nat) (r : RandStream)
    (batch : List Service)
    (hok : algo pathG 1 100 1 fuel r = .ok batch) :
    ∃ s, batch = [s] ∧ (∃ t, s.tracks = [t] ∧ t.edges.length = 3 ∧
      (∀ e ∈ pathG.edges, t.edges.contains e ∨ t.edges.contains (e.2, e.1))) ∧
      s.time = 15 ∧ s.percen_critical_edges_traversed = 1 := by
  unfold algo at hok
  obtain ⟨p, s2, hgen, hcmb, hbatch⟩ :=
    algo_loop_one pathG 1 100 fuel r 0 [] batch hok
  obtain ⟨hps, hpool⟩ := build_pathG fuel r 0 p (by simpa [generate_service] using hgen)
  rcases hps with hA | hD
  · rw [hA] at hcmb
    have hopt : combine_tracks (remove_unnecessary_tracks svcA pathG) 100 pathG
        = .ok svcA := by decide
    rw [hopt] at hcmb
    injection hcmb with hcmb
    refine ⟨svcA, ?_, ⟨trackA, by decide, by decide, by decide⟩, by decide, by decide⟩
    rw [hbatch, ← hcmb]
    rfl
  · rw [hD] at hcmb
    have hopt : combine_tracks (remove_unnecessary_tracks svcD pathG) 100 pathG
        = .ok svcD := by decide
    rw [hopt] at hcmb
    injection hcmb with hcmb
    refine ⟨svcD, ?_, ⟨trackD, by decide, by decide, by decide⟩, by decide, by decide⟩
    rw [hbatch, ← hcmb]
    rfl

/-- C6 (counterexample to the claim as stated): in the `gBC` run with a
track cap of 1 and maximum track time 12, edge (b, c) is removed from
the pool and returned to it by an overflow correction, yet the run ends
— the track cap stops the outer loop — with (b, c) still in the pool and
appearing in no track of the pre-optimization service, so it does not
"reappear in a later Track". -/
theorem claim_C6_counterexample :
    generate_service gBC 1 12 30 (fun k => k) 0 = .ok (svcBC, [("b", "c")], logBC, 4) ∧
    1 ≤ removedCount logBC ("b", "c") ∧
    1 ≤ returnedCount logBC ("b", "c") ∧
    ucount ("b", "c") (tracksEdges svcBC) = 0 := by
  refine ⟨by decide, by decide, by decide, by decide⟩

/-- C6 (amended): for every terminating generation run over a graph
without duplicate undirected edges, every edge removed from the
untraversed pool during the run appears exactly once across the Tracks
of the pre-optimization Service and is absent from the final pool —
except edges returned to the pool by an overflow correction and not
re-traversed, which sit in the final pool (with at least one return
event recorded) and appear in no Track. -/
theorem claim_C6_amended_edge_conservation
    (g : Graph) (max_track_amount : Nat) (max_track_length : Int)
    (fuel : Nat) (r : RandStream) (k : Nat)
    (res : Service × List Edge × List WalkEv × Nat)
    (hnodup : ∀ e ∈ g.edges, ucount e g.edges ≤ 1)
    (hok : generate_service g max_track_amount max_track_length fuel r k = .ok res)
    (e : Edge) (hrem : 1 ≤ removedCount res.2.2.1 e) :
    (ucount e (tracksEdges res.1) = 1 ∧ ucount e res.2.1 = 0) ∨
    (1 ≤ returnedCount res.2.2.1 e ∧ ucount e res.2.1 = 1 ∧
      ucount e (tracksEdges res.1) = 0) := by
  have hb : build_service g max_track_amount max_track_length fuel r k
      (Service.init g) g.edges [] = .ok res := by
    simpa [generate_service] using hok
  have hIA : ∀ e2, ucount e2 g.edges + ucount e2 (tracksEdges (Service.init g))
      = ucount e2 g.edges := by
    intro e2
    have h0 : ucount e2 (tracksEdges (Service.init g)) = 0 := rfl
    omega
  have hIB : ∀ e2, ucount e2 g.edges + removedCount [] e2
      = ucount e2 g.edges + returnedCount [] e2 := by
    intro e2
    have h1 : removedCount [] e2 = 0 := rfl
    have h2 : returnedCount [] e2 = 0 := rfl
    omega
  have hID : ∀ e2, ucount e2 g.edges = 0 →
      removedCount [] e2 = 0 ∧ returnedCount [] e2 = 0 :=
    fun e2 _ => ⟨rfl, rfl⟩
  obtain ⟨hA, hB, hD⟩ := build_conservation g max_track_amount max_track_length
    fuel r k (Service.init g) g.edges [] res hb hIA hIB hID
  have hE1 : ucount e g.edges = 1 := by
    rcases Nat.eq_zero_or_pos (ucount e g.edges) with h0 | hpos
    · have := (hD e h0).1
      omega
    · have hmem : e ∈ g.edges ∨ (e.2, e.1) ∈ g.edges := by
        by_contra hval
        push_neg at hval
        have h1 : g.edges.count e = 0 := List.count_eq_zero_of_not_mem hval.1
        have h2 : g.edges.count (e.2, e.1) = 0 :=
          List.count_eq_zero_of_not_mem hval.2
        unfold ucount at hpos
        omega
      rcases hmem with hm | hm
      · exact le_antisymm (hnodup e hm) hpos
      · have hle := hnodup _ hm
        rw [ucount_swap] at hle
        exact le_antisymm hle hpos
  have hAe := hA e
  have hBe := hB e
  have hcase : ucount e res.2.1 = 0 ∨ ucount e res.2.1 = 1 := by omega
  rcases hcase with h0 | h1
  · exact Or.inl ⟨by omega, h0⟩
  · exact Or.inr ⟨by omega, h1, by omega⟩

/-- Witness for C6 (amended) at the `gBC` overflow run, for the removed
and overflow-returned edge (b, c): the second disjunct holds. -/
theorem claim_C6_witness :
    (ucount ("b", "c") (tracksEdges svcBC) = 1 ∧ ucount ("b", "c") [("b", "c")] = 0) ∨
    (1 ≤ returnedCount logBC ("b", "c") ∧ ucount ("b", "c") [("b", "c")] = 1 ∧
      ucount ("b", "c") (tracksEdges svcBC) = 0) :=
  claim_C6_amended_edge_conservation gBC 1 12 30 (fun k => k) 0
    (svcBC, [("b", "c")], logBC, 4) (by decide) (by decide) ("b", "c") (by decide)

/-- Witness for C7: the run driven by the identity draw stream with fuel
30 terminates and returns exactly the claimed batch. -/
theorem claim_C7_witness :
    ∃ s, [svcA] = [s] ∧ (∃ t, s.tracks = [t] ∧ t.edges.length = 3 ∧
      (∀ e ∈ pathG.edges, t.edges.contains e ∨ t.edges.contains (e.2, e.1))) ∧
      s.time = 15 ∧ s.percen_critical_edges_traversed = 1 :=
  claim_C7_path_graph_scenario 30 (fun k => k) [svcA] (by decide)

/-- C8: every track of every service returned by `algo` — including
tracks built by the merge pass through bulk edge-list replacement —
satisfies the contiguity invariant: the end node of each edge equals the
start node of the next. -/
theorem claim_C8_all_returned_tracks_contiguous
    (g : Graph) (max_track_amount : Nat) (max_track_length : Int)
    (iterator fuel : Nat) (r : RandStream) (batch : List Service)
    (hok : algo g max_track_amount max_track_length iterator fuel r = .ok batch) :
    ∀ s ∈ batch, ∀ t ∈ s.tracks, contiguous t.edges := by
  unfold algo at hok
  refine algo_loop_all_contiguous g max_track_amount max_track_length fuel r
    iterator 0 [] batch hok ?_
  intro s hsm
  simp at hsm

/-- Witness for C8: the one track of the service returned by the
concrete `pathG` run is contiguous. -/
theorem claim_C8_witness : contiguous trackA.edges :=
  claim_C8_all_returned_tracks_contiguous pathG 1 100 1 30 (fun k => k) [svcA]
    (by decide) svcA (by simp) trackA (by simp [svcA])

/-- Witness for C10 at the freshly initialized (empty) track. -/
theorem claim_C10_witness :
    (Track.init.remove_last_edge (fun _ _ => 5)).edges = [] ∧
    (Track.init.remove_last_edge (fun _ _ => 5)).time = 0 :=
  claim_C10_remove_last_edge_total_on_empty (fun _ _ => 5) Track.init rfl

end Hierholzer
